import Mathlib

/-!
Verification of the octasphere triangulation core.

The development shallowly embeds the triangulation module
(`lib/triangulation.ts`, provided as `src/unnamed/part_000`) and the mesh
index / metrics code of `src/lab/src/index.ts` over ideal real arithmetic.
Vectors (`BABYLON.Vector3`) become a record of three reals; the vector
primitives mirror Babylon's semantics (in particular `normalize` leaves the
zero vector unchanged).  Helper functions of the repository's `utils` module
(not part of the provided sources) are modelled from the spec where needed.
-/

namespace Octasphere

/-- A 3d vector over ideal reals, standing in for `BABYLON.Vector3`. -/
@[ext]
structure V3 where
  x : ℝ
  y : ℝ
  z : ℝ

/-- The zero vector (`Vector3.Zero()` / `Vector3.ZeroReadOnly`). -/
def vzero : V3 := ⟨0, 0, 0⟩

noncomputable instance : Add V3 := ⟨fun a b => ⟨a.x + b.x, a.y + b.y, a.z + b.z⟩⟩

noncomputable instance : Sub V3 := ⟨fun a b => ⟨a.x - b.x, a.y - b.y, a.z - b.z⟩⟩

/-- Scaling a vector (`scale` / `scaleInPlace`). -/
noncomputable def smul (c : ℝ) (v : V3) : V3 := ⟨c * v.x, c * v.y, c * v.z⟩

/-- Euclidean length of a vector (`Vector3#length`). -/
noncomputable def vnorm (v : V3) : ℝ := Real.sqrt (v.x * v.x + v.y * v.y + v.z * v.z)

/-- Babylon's `Vector3#normalize`: scale to unit length, except that the
zero vector is left unchanged. -/
noncomputable def normalize (v : V3) : V3 :=
  if vnorm v = 0 then v else smul (1 / vnorm v) v

/-- Squared distance of two vectors (`Vector3.DistanceSquared`). -/
noncomputable def distSq (a b : V3) : ℝ :=
  (a.x - b.x) * (a.x - b.x) + (a.y - b.y) * (a.y - b.y) + (a.z - b.z) * (a.z - b.z)

/-- Dot product (`Vector3#dot`). -/
noncomputable def dot (a b : V3) : ℝ := a.x * b.x + a.y * b.y + a.z * b.z

/-- Cross product (`Vector3#cross`). -/
noncomputable def cross (a b : V3) : V3 :=
  ⟨a.y * b.z - a.z * b.y, a.z * b.x - a.x * b.z, a.x * b.y - a.y * b.x⟩

/-- Coordinate sum of a vector; `baryNorm` in the source. -/
noncomputable def baryNorm (v : V3) : ℝ := v.x + v.y + v.z

@[simp] theorem add_def (a b : V3) : a + b = ⟨a.x + b.x, a.y + b.y, a.z + b.z⟩ := rfl

@[simp] theorem sub_def (a b : V3) : a - b = ⟨a.x - b.x, a.y - b.y, a.z - b.z⟩ := rfl

theorem vnorm_nonneg (v : V3) : 0 ≤ vnorm v := Real.sqrt_nonneg _

theorem vnorm_smul (c : ℝ) (v : V3) : vnorm (smul c v) = |c| * vnorm v := by
  unfold vnorm smul
  rw [show c * v.x * (c * v.x) + c * v.y * (c * v.y) + c * v.z * (c * v.z)
        = (c * c) * (v.x * v.x + v.y * v.y + v.z * v.z) by ring,
    Real.sqrt_mul (mul_self_nonneg c), Real.sqrt_mul_self_eq_abs]

theorem vnorm_eq_zero_iff (v : V3) : vnorm v = 0 ↔ v = vzero := by
  unfold vnorm
  constructor
  · intro h
    have hsum : v.x * v.x + v.y * v.y + v.z * v.z = 0 := by
      have h0 : 0 ≤ v.x * v.x + v.y * v.y + v.z * v.z := by
        nlinarith [mul_self_nonneg v.x, mul_self_nonneg v.y, mul_self_nonneg v.z]
      have := Real.sqrt_eq_zero h0 |>.mp h
      linarith
    have hx : v.x = 0 := by nlinarith [mul_self_nonneg v.x, mul_self_nonneg v.y, mul_self_nonneg v.z]
    have hy : v.y = 0 := by nlinarith [mul_self_nonneg v.x, mul_self_nonneg v.y, mul_self_nonneg v.z]
    have hz : v.z = 0 := by nlinarith [mul_self_nonneg v.x, mul_self_nonneg v.y, mul_self_nonneg v.z]
    cases v
    simp_all [vzero]
  · intro h
    subst h
    simp [vzero]

theorem vnorm_of_normalize (v : V3) (h : vnorm v ≠ 0) : vnorm (normalize v) = 1 := by
  unfold normalize
  rw [if_neg h, vnorm_smul]
  have hpos : 0 < vnorm v := lt_of_le_of_ne (vnorm_nonneg v) (Ne.symm h)
  rw [abs_of_pos (by positivity)]
  field_simp

/-- A point whose coordinate sum is nonzero is itself nonzero. -/
theorem vnorm_ne_zero_of_baryNorm (v : V3) (h : baryNorm v ≠ 0) : vnorm v ≠ 0 := by
  intro h0
  apply h
  have := (vnorm_eq_zero_iff v).mp h0
  subst this
  simp [baryNorm, vzero]

/-! Triangulation generators (`src/unnamed/part_000`). -/

/-- A triangulation is a 2-level array of points (`Triangulation`). -/
abbrev Triangulation := List (List V3)

/-- The constant `TAU = 2 * Math.PI` (`src/lab/src/index.ts`, line 27). -/
noncomputable def TAU : ℝ := 2 * Real.pi

/-- Unit vector `ex`. -/
def ex : V3 := ⟨1, 0, 0⟩

/-- Unit vector `ey`. -/
def ey : V3 := ⟨0, 1, 0⟩

/-- Unit vector `ez`. -/
def ez : V3 := ⟨0, 0, 1⟩

/-- Modelled from the spec: `lerp` of the repository's `utils` module (not in
the provided sources) is linear interpolation, `lerp(a, b, t) = a + t(b-a)`
(spec 4.2: bilinear interpolation with grid parameters in `[0,1]`). -/
noncomputable def lerp (a b : V3) (t : ℝ) : V3 := a + smul t (b - a)

/-- Modelled from the spec: `slerp` of the repository's `utils` module (not in
the provided sources) is spherical linear interpolation between two unit
vectors along the connecting great-circle arc (spec glossary). -/
noncomputable def slerp (a b : V3) (t : ℝ) : V3 :=
  let om := Real.arccos (dot a b)
  smul (Real.sin ((1 - t) * om) / Real.sin om) a +
    smul (Real.sin (t * om) / Real.sin om) b

/-- Modelled from the spec: `subdivide(0, 1, m)` of the repository's `utils`
module (not in the provided sources) yields the `m+1` grid parameters
`j/m` for `j = 0..m` (spec 4.2: `t = j' / n'`, `u = i / n`); the degenerate
call with `m = 0` yields the single parameter `0` (spec 3: the apex row has
exactly one point). -/
noncomputable def subdivide (lo hi : ℝ) (m : ℕ) : List ℝ :=
  (List.range (m + 1)).map (fun (j : ℕ) => lo + (hi - lo) * ((j : ℝ) / (m : ℝ)))

/-- The generic generator `triangulate` (`part_000`, lines 18-25): row `i`
(the source calls it `j`) samples `f` at `u = i/n` and the `(n-i)*refinement + 1`
parameters `t` of the subdivided row. -/
noncomputable def triangulate (f : ℝ → ℝ → V3) (n : ℕ) (refinement : ℕ) : Triangulation :=
  (subdivide 0 1 n).mapIdx (fun j u =>
    (subdivide 0 1 ((n - j) * refinement)).map (fun t => f t u))

/-- Modelled from the spec: `map2` of the repository's `utils` module (not in
the provided sources) maps a function over every point of a 2-level array
(spec 4.2: `sines` "applies a sine warp ... to the `flat` grid"). -/
noncomputable def map2 (t : Triangulation) (f : V3 → V3) : Triangulation :=
  t.map (fun row => row.map f)

/-- The parametric function of `flat`: `lerp(lerp(ex, ez, t), ey, u)`. -/
noncomputable def flatF (t u : ℝ) : V3 := lerp (lerp ex ez t) ey u

/-- Generator `flat` (`part_000`, lines 30-33). -/
noncomputable def flat (n : ℕ) (refinement : ℕ) : Triangulation := triangulate flatF n refinement

/-- Generator `collapsed` (`part_000`, lines 34-36). -/
noncomputable def collapsed (n : ℕ) (refinement : ℕ) : Triangulation :=
  triangulate (fun _ _ => vzero) n refinement

/-- Generator `geodesics` (`part_000`, lines 37-39). -/
noncomputable def geodesics (n : ℕ) (refinement : ℕ) : Triangulation :=
  triangulate (fun t u => normalize (flatF t u)) n refinement

/-- Generator `parallels` (`part_000`, lines 40-42). -/
noncomputable def parallels (n : ℕ) (refinement : ℕ) : Triangulation :=
  triangulate (fun t u => slerp (slerp ex ez t) ey u) n refinement

/-- Generator `evenGeodesics` (`part_000`, lines 43-45). -/
noncomputable def evenGeodesics (n : ℕ) (refinement : ℕ) : Triangulation :=
  triangulate (fun t u => slerp (slerp ex ey u) (slerp ez ey u) t) n refinement

/-- The sine warp applied pointwise by `sines`. -/
noncomputable def sinWarp (v : V3) : V3 :=
  ⟨Real.sin (TAU / 4 * v.x), Real.sin (TAU / 4 * v.y), Real.sin (TAU / 4 * v.z)⟩

/-- Generator `sines` (`part_000`, lines 50-52). -/
noncomputable def sines (n : ℕ) : Triangulation := map2 (flat n 1) sinWarp

/-- Generator `sineBased` (`part_000`, line 53). -/
noncomputable def sineBased (n : ℕ) : Triangulation := map2 (sines n) normalize

/-- Parallel projection in the `(1,1,1)` direction onto the unit sphere
(`part_000`, lines 60-63). -/
noncomputable def proj (p : V3) : V3 :=
  let lambda := (Real.sqrt (2 * (p.x * p.y + p.x * p.z + p.y * p.z
      - p.x * p.x - p.y * p.y - p.z * p.z) + 3) - (p.x + p.y + p.z)) / 3
  ⟨p.x + lambda, p.y + lambda, p.z + lambda⟩

/-- Generator `sineBased2` (`part_000`, line 67). -/
noncomputable def sineBased2 (n : ℕ) : Triangulation := map2 (sines n) proj

/-- `baryNormalizeInPlace` (`part_000`, line 71): scale so the coordinate sum
becomes 1. -/
noncomputable def baryNormalize (p : V3) : V3 := smul (1 / baryNorm p) p

/-- Componentwise arcsine, as computed inside `findSineRatio`. -/
noncomputable def asinV (v : V3) : V3 := ⟨Real.arcsin v.x, Real.arcsin v.y, Real.arcsin v.z⟩

/-- The initial guess of `findSineRatio` (`part_000`, lines 84-86): the
`sineBased` estimate of `p`, normalized. -/
noncomputable def fsrSeed (p : V3) : V3 := normalize (sinWarp p)

/-- One non-terminating iteration of `findSineRatio` (`part_000`, line 95):
`guess <- normalize(baryNormalize(guess) - offset)`. -/
noncomputable def fsrStep (p g : V3) : V3 :=
  normalize (baryNormalize g - (baryNormalize (asinV g) - p))

/-- The iteration of `findSineRatio` (`part_000`, lines 87-96), with explicit
fuel; the returned flag records whether the success branch was taken. -/
noncomputable def fsrLoop (p : V3) : ℕ → V3 → V3 × Bool
  | 0, g => (g, false)
  | fuel + 1, g =>
    if vnorm (baryNormalize (asinV g) - p) < 1e-10 then (g, true)
    else fsrLoop p fuel (fsrStep p g)

/-- `findSineRatio` (`part_000`, lines 80-99): run at most 30 iterations from
the `sineBased` seed; on exhaustion the last guess is returned (the source
additionally logs a warning). -/
noncomputable def findSineRatio (p : V3) : V3 := (fsrLoop p 30 (fsrSeed p)).1

/-- Generator `asinBased` (`part_000`, lines 100-101). -/
noncomputable def asinBased (n : ℕ) (refinement : ℕ) : Triangulation :=
  map2 (flat n refinement) findSineRatio

/-- Normalized mean of a number of vectors (`part_000`, lines 111-112). -/
noncomputable def mean (vectors : List V3) : V3 :=
  normalize (vectors.foldl (fun sum v => sum + v) vzero)

/-- Total array access `t[i][j]` with Babylon-free defaults (all uses below are
guarded so the defaults are never taken on well-shaped triangulations). -/
def getV (t : Triangulation) (i j : ℕ) : V3 := (t.getD i []).getD j vzero

/-- The per-point update of `balance` (`part_000`, lines 115-127): the body of
the nested `map` callbacks, with `t` the full grid, `(i, j)` the position and
`v` the current point. -/
noncomputable def balanceAt (t : Triangulation) (i j : ℕ) (v : V3) : V3 :=
  let n : ℤ := (t.length : ℤ) - 1
  let k : ℤ := n - i - j
  if (i : ℤ) = 0 then
    (if (j : ℤ) = 0 ∨ k = 0 then v else mean [getV t 0 (j - 1), getV t 0 (j + 1)])
  else if (j : ℤ) = 0 then
    (if (i : ℤ) = 0 ∨ k = 0 then v else mean [getV t (i - 1) 0, getV t (i + 1) 0])
  else if k = 0 then
    (if (i : ℤ) = 0 ∨ (j : ℤ) = 0 then v else mean [getV t (i - 1) (j + 1), getV t (i + 1) (j - 1)])
  else
    mean [getV t (i + 1) (j - 1), getV t (i + 1) j,
          getV t i (j - 1), getV t i (j + 1),
          getV t (i - 1) j, getV t (i - 1) (j + 1)]

/-- One relaxation pass (`part_000`, lines 114-128). -/
noncomputable def balance (t : Triangulation) : Triangulation :=
  t.mapIdx (fun i row => row.mapIdx (fun j v => balanceAt t i j v))

/-- `distSqSumOf` (`part_000`, lines 130-132); `zip` of the missing `utils`
module is modelled from the spec ("point displacement across all vertices"). -/
noncomputable def distSqSumOf (a b : Triangulation) : ℝ :=
  (List.zipWith distSq a.flatten b.flatten).sum

/-- The convergence loop of `balanced` (`part_000`, lines 138-146): the grid is
refined first, then the root-mean-square displacement test may stop the loop;
`nV` is the vertex count of the seed. -/
noncomputable def balancedLoop (nV : ℕ) : ℕ → Triangulation → Triangulation
  | 0, t => t
  | fuel + 1, t =>
    let refined := balance t
    if Real.sqrt (distSqSumOf t refined / (nV : ℝ)) < 1e-8 then refined
    else balancedLoop nV fuel refined

/-- Generator `balanced` (`part_000`, lines 134-148): at most 100 relaxation
passes over the `sineBased` seed. -/
noncomputable def balanced (n : ℕ) : Triangulation :=
  balancedLoop (sineBased n).flatten.length 100 (sineBased n)

/-- The generator registry `triangulationFns` (`part_000`, lines 150-154). -/
noncomputable def triangulationFns : List (String × (ℕ → Triangulation)) :=
  [("flat", fun n => flat n 1),
   ("sines", sines),
   ("collapsed", fun n => collapsed n 1),
   ("geodesics", fun n => geodesics n 1),
   ("evenGeodesics", fun n => evenGeodesics n 1),
   ("parallels", fun n => parallels n 1),
   ("sineBased", sineBased),
   ("sineBased2", sineBased2),
   ("asinBased", fun n => asinBased n 1),
   ("balanced", balanced)]

/-- The warning output of `findSineRatio` (`part_000`, lines 87-98): the
success branch returns from inside the loop without logging; when the loop
exhausts its 30 iterations, the `console.warn` on line 97 fires. -/
noncomputable def findSineRatioWarnings (p : V3) : List String :=
  if (fsrLoop p 30 (fsrSeed p)).2 = true then []
  else ["findSineRatio: iteration failed"]

/-- The warning output of the convergence loop of `balanced` (`part_000`,
lines 138-146), mirroring its control flow: neither the early-stop branch nor
the budget-exhaustion branch contains a logging call (the `console.log` on
line 141 is commented out), so every path emits nothing. -/
noncomputable def balancedLoopWarnings (nV : ℕ) : ℕ → Triangulation → List String
  | 0, _ => []
  | fuel + 1, t =>
    let refined := balance t
    if Real.sqrt (distSqSumOf t refined / (nV : ℝ)) < 1e-8 then []
    else balancedLoopWarnings nV fuel refined

/-- The warning output of `balanced` (`part_000`, lines 134-148). -/
noncomputable def balancedWarnings (n : ℕ) : List String :=
  balancedLoopWarnings (sineBased n).flatten.length 100 (sineBased n)

/-! Mesh index builder and quality metrics (`src/lab/src/index.ts`). -/

/-- Total number of vertices in the first `i` vertex rows
(`src/lab/src/index.ts`, lines 130-134). -/
def rowVertices (steps i : ℕ) : ℕ := i * (2 * steps + 3 - i) / 2

/-- Number of vertices of the patch (`index.ts`, line 135). -/
def nVertices (steps : ℕ) : ℕ := rowVertices steps (steps + 1)

/-- Vertex index from the logical vertex position (`index.ts`, lines 140-141). -/
def vtx (steps i j : ℕ) : ℕ := rowVertices steps i + j

/-- Size of the allocated triangle index buffer, in triangles
(`index.ts`, line 153). -/
def nTriangles (steps : ℕ) : ℕ := 6 * 2 + 12 * steps * 2 + 8 * steps ^ 2

/-- The triangles emitted by the vertex loop of `EighthSphereTriangulation`
(`index.ts`, lines 171-179): for every grid position, an upward triangle when
`i > 0` and a downward triangle when additionally `j > 0`, in emission order. -/
def trianglesList (steps : ℕ) : List (ℕ × ℕ × ℕ) :=
  (List.range (steps + 1)).flatMap (fun i =>
    (List.range (steps + 1 - i)).flatMap (fun j =>
      (if 0 < i then [(vtx steps (i - 1) j, vtx steps (i - 1) (j + 1), vtx steps i j)] else []) ++
      (if 0 < i ∧ 0 < j then [(vtx steps i j, vtx steps i (j - 1), vtx steps (i - 1) j)] else [])))

/-- The index buffer handed to the mesh (`index.ts`, lines 154-163, 189): a
`Uint32Array` of `nTriangles * 3` zero-initialized entries of which the vertex
loop fills the first `3 * steps^2`. -/
def indexBuffer (steps : ℕ) : List ℕ :=
  let written := (trianglesList steps).flatMap (fun t => [t.1, t.2.1, t.2.2])
  written ++ List.replicate (3 * nTriangles steps - written.length) 0

/-- The three forward neighbor offsets of the metrics code
(`index.ts`, line 369). -/
def forwardNeighborOffsets : List (ℤ × ℤ) := [(1, -1), (1, 0), (0, 1)]

/-- The edges enumerated by the metrics loop (`index.ts`, lines 400-404):
grid position plus forward offset such that the neighbor stays on the grid. -/
def forwardEdges (n : ℕ) : List ((ℕ × ℕ) × (ℤ × ℤ)) :=
  (List.range (n + 1)).flatMap (fun i =>
    (List.range (n + 1 - i)).flatMap (fun j =>
      forwardNeighborOffsets.filterMap (fun d =>
        if 0 ≤ (i : ℤ) + d.1 ∧ 0 ≤ (j : ℤ) + d.2 ∧ 0 ≤ (n : ℤ) - ((i : ℤ) + d.1) - ((j : ℤ) + d.2)
        then some ((i, j), d) else none)))

/-- Dihedral bend between triangles `p0 p1 p2` and `p0 p2 p3`
(`index.ts`, lines 375-382). -/
noncomputable def dihedralBend (p0 p1 p2 p3 : V3) : ℝ :=
  Real.arccos (dot (normalize (cross (p1 - p0) (p2 - p0)))
                   (normalize (cross (p2 - p0) (p3 - p0))))

/-- The bends of all forward edges (`index.ts`, lines 414-431), including the
boundary fallbacks to the adjacent-patch outer vertex (`adjCyl` selects the
cylinder continuation). -/
noncomputable def dihedralsOf (n : ℕ) (adjCyl : Bool) (tri : Triangulation) : List ℝ :=
  (forwardEdges n).map (fun e =>
    let i := e.1.1
    let j := e.1.2
    let di := e.2.1
    let dj := e.2.2
    let v := getV tri i j
    let v2 := getV tri ((i : ℤ) + di).toNat ((j : ℤ) + dj).toNat
    let ia := (i : ℤ) + di + dj
    let ja := (j : ℤ) - di
    let ib := (i : ℤ) - dj
    let jb := (j : ℤ) + di + dj
    if ib < 0 then
      let va := getV tri 1 j
      let vb := if adjCyl then V3.mk v.x (-1) v.z else V3.mk va.x (-va.y) va.z
      dihedralBend v va v2 vb
    else if ja < 0 then
      let vb := getV tri i 1
      let va := if adjCyl then V3.mk v.x v.y (-1) else V3.mk vb.x vb.y (-vb.z)
      dihedralBend v va v2 vb
    else if ib + jb > (n : ℤ) then
      let vb := getV tri i (j - 1)
      let va := if adjCyl then V3.mk (-1) v.y v.z else V3.mk (-vb.x) vb.y vb.z
      dihedralBend v va v2 vb
    else
      let va := getV tri ia.toNat ja.toNat
      let vb := getV tri ib.toNat jb.toNat
      dihedralBend v va v2 vb)

/-- The metrics code sorts the dihedral list by descending bend and reads
`dihedrals[0].bend` (`index.ts`, lines 442, 451); reading the first element of
an empty array yields no value (the source would throw on `.bend`). -/
noncomputable def maxBendOpt (n : ℕ) (adjCyl : Bool) (tri : Triangulation) : Option ℝ :=
  ((dihedralsOf n adjCyl tri).mergeSort (fun a b => decide (b ≤ a))).head?

/-! Shape of the generated triangulations. -/

/-- The shape invariant of spec section 3: `n + 1` rows, row `i` holding
`n - i + 1` points. -/
def Shaped (t : Triangulation) (n : ℕ) : Prop :=
  t.length = n + 1 ∧ ∀ i, i ≤ n → (t.getD i []).length = n + 1 - i

theorem length_subdivide (lo hi : ℝ) (m : ℕ) : (subdivide lo hi m).length = m + 1 := by
  unfold subdivide
  rw [List.length_map, List.length_range]

theorem getElem_subdivide01 (m j : ℕ) (h : j < (subdivide 0 1 m).length) :
    (subdivide 0 1 m)[j] = (j : ℝ) / (m : ℝ) := by
  unfold subdivide at h ⊢
  simp only [List.getElem_map, List.getElem_range]
  ring

theorem length_triangulate (f : ℝ → ℝ → V3) (n r : ℕ) :
    (triangulate f n r).length = n + 1 := by
  unfold triangulate
  rw [List.length_mapIdx, length_subdivide]

theorem getElem_triangulate (f : ℝ → ℝ → V3) (n r i : ℕ)
    (h : i < (triangulate f n r).length) :
    (triangulate f n r)[i] =
      (subdivide 0 1 ((n - i) * r)).map (fun t => f t ((i : ℝ) / (n : ℝ))) := by
  have h2 : i < (subdivide 0 1 n).length := by
    rw [length_subdivide]
    rw [length_triangulate] at h
    omega
  have h3 := List.get_mapIdx (subdivide 0 1 n)
    (fun j u => (subdivide 0 1 ((n - j) * r)).map (fun t => f t u)) i h2
  rw [List.get_eq_getElem, List.get_eq_getElem] at h3
  unfold triangulate
  rw [h3, getElem_subdivide01]

theorem row_triangulate (f : ℝ → ℝ → V3) (n r i : ℕ) (hi : i ≤ n) :
    (triangulate f n r).getD i [] =
      (subdivide 0 1 ((n - i) * r)).map (fun t => f t ((i : ℝ) / (n : ℝ))) := by
  have h : i < (triangulate f n r).length := by
    rw [length_triangulate]
    omega
  rw [List.getD_eq_getElem _ _ h, getElem_triangulate]

theorem shaped_triangulate (f : ℝ → ℝ → V3) (n : ℕ) : Shaped (triangulate f n 1) n := by
  refine ⟨length_triangulate f n 1, fun i hi => ?_⟩
  rw [row_triangulate f n 1 i hi, List.length_map, length_subdivide]
  omega

/-- The value of a triangulated vertex at a valid grid position. -/
theorem getV_triangulate (f : ℝ → ℝ → V3) (n r i j : ℕ) (hi : i ≤ n) (hj : j ≤ (n - i) * r) :
    getV (triangulate f n r) i j =
      f ((j : ℝ) / (((n - i) * r : ℕ) : ℝ)) ((i : ℝ) / (n : ℝ)) := by
  unfold getV
  rw [row_triangulate f n r i hi]
  have hj2 : j < ((subdivide 0 1 ((n - i) * r)).map
      (fun t => f t ((i : ℝ) / (n : ℝ)))).length := by
    rw [List.length_map, length_subdivide]
    omega
  rw [List.getD_eq_getElem _ _ hj2, List.getElem_map, getElem_subdivide01]

theorem length_map2 (t : Triangulation) (f : V3 → V3) : (map2 t f).length = t.length := by
  unfold map2
  rw [List.length_map]

theorem row_map2 (t : Triangulation) (f : V3 → V3) (i : ℕ) (h : i < t.length) :
    (map2 t f).getD i [] = (t.getD i []).map f := by
  unfold map2
  have h2 : i < (t.map (fun row => row.map f)).length := by
    rw [List.length_map]
    exact h
  rw [List.getD_eq_getElem _ _ h2, List.getD_eq_getElem _ _ h, List.getElem_map]

theorem shaped_map2 (t : Triangulation) (f : V3 → V3) (n : ℕ) (h : Shaped t n) :
    Shaped (map2 t f) n := by
  obtain ⟨hlen, hrow⟩ := h
  refine ⟨by rw [length_map2, hlen], fun i hi => ?_⟩
  rw [row_map2 t f i (by omega), List.length_map, hrow i hi]

/-- The value of a `map2`-transformed vertex at a valid grid position. -/
theorem getV_map2 (t : Triangulation) (f : V3 → V3) (n i j : ℕ) (h : Shaped t n)
    (hi : i ≤ n) (hj : j ≤ n - i) :
    getV (map2 t f) i j = f (getV t i j) := by
  obtain ⟨hlen, hrow⟩ := h
  unfold getV
  rw [row_map2 t f i (by omega)]
  have hj3 : j < (t.getD i []).length := by
    rw [hrow i hi]
    omega
  have hj2 : j < ((t.getD i []).map f).length := by
    rw [List.length_map]
    exact hj3
  rw [List.getD_eq_getElem _ _ hj2, List.getD_eq_getElem _ _ hj3, List.getElem_map]

theorem length_balance (t : Triangulation) : (balance t).length = t.length := by
  unfold balance
  rw [List.length_mapIdx]

theorem getD_mapIdx {α β : Type} (l : List α) (g : ℕ → α → β) (i : ℕ) (h : i < l.length)
    (d : β) (e : α) : (l.mapIdx g).getD i d = g i (l.getD i e) := by
  have h2 : i < (l.mapIdx g).length := by
    rw [List.length_mapIdx]
    exact h
  rw [List.getD_eq_getElem _ _ h2, List.getD_eq_getElem _ _ h]
  have h3 := List.get_mapIdx l g i h
  rw [List.get_eq_getElem, List.get_eq_getElem] at h3
  exact h3

theorem row_balance_length (t : Triangulation) (i : ℕ) (h : i < t.length) :
    ((balance t).getD i []).length = (t.getD i []).length := by
  unfold balance
  rw [getD_mapIdx t _ i h [] [], List.length_mapIdx]

theorem shaped_balance (t : Triangulation) (n : ℕ) (h : Shaped t n) :
    Shaped (balance t) n := by
  obtain ⟨hlen, hrow⟩ := h
  refine ⟨by rw [length_balance, hlen], fun i hi => ?_⟩
  rw [row_balance_length t i (by omega), hrow i hi]

theorem shaped_iterate_balance (n k : ℕ) : ∀ t, Shaped t n → Shaped (balance^[k] t) n := by
  induction k with
  | zero =>
    intro t h
    simpa using h
  | succ k ih =>
    intro t h
    rw [Function.iterate_succ_apply]
    exact ih (balance t) (shaped_balance t n h)

/-- The convergence loop runs between 1 and `fuel` relaxation passes; if it
stops before exhausting the fuel, the last pass moved the grid by less than
the tolerance in root-mean-square distance. -/
theorem balancedLoop_spec (nV : ℕ) : ∀ fuel t, 1 ≤ fuel → ∃ k, 1 ≤ k ∧ k ≤ fuel ∧
    balancedLoop nV fuel t = balance^[k] t ∧
    (k < fuel →
      Real.sqrt (distSqSumOf (balance^[k - 1] t) (balance^[k] t) / (nV : ℝ)) < 1e-8) := by
  intro fuel
  induction fuel with
  | zero => omega
  | succ fuel ih =>
    intro t _
    by_cases hc : Real.sqrt (distSqSumOf t (balance t) / (nV : ℝ)) < 1e-8
    · refine ⟨1, le_refl 1, by omega, ?_, ?_⟩
      · show balancedLoop nV (fuel + 1) t = balance^[1] t
        rw [balancedLoop, if_pos hc, Function.iterate_one]
      · intro _
        simpa using hc
    · cases Nat.eq_zero_or_pos fuel with
      | inl h0 =>
        subst h0
        refine ⟨1, le_refl 1, le_refl 1, ?_, by omega⟩
        rw [balancedLoop, if_neg hc, balancedLoop, Function.iterate_one]
      | inr hpos =>
        obtain ⟨k, hk1, hk2, hk3, hk4⟩ := ih (balance t) hpos
        refine ⟨k + 1, by omega, by omega, ?_, ?_⟩
        · rw [balancedLoop, if_neg hc, hk3, ← Function.iterate_succ_apply]
        · intro hlt
          have h5 : balance^[k - 1] (balance t) = balance^[k] t := by
            rw [← Function.iterate_succ_apply]
            congr 1
            omega
          have h6 : balance^[k] (balance t) = balance^[k + 1] t :=
            (Function.iterate_succ_apply balance k t).symm
          have h7 := hk4 (by omega)
          rw [h5, h6] at h7
          simpa using h7

theorem balanced_eq_iterate (n : ℕ) : ∃ k, 1 ≤ k ∧ k ≤ 100 ∧
    balanced n = balance^[k] (sineBased n) := by
  obtain ⟨k, h1, h2, h3, _⟩ :=
    balancedLoop_spec (sineBased n).flatten.length 100 (sineBased n) (by omega)
  exact ⟨k, h1, h2, h3⟩

theorem shaped_flat (n : ℕ) : Shaped (flat n 1) n := shaped_triangulate _ n

theorem shaped_sines (n : ℕ) : Shaped (sines n) n := shaped_map2 _ _ n (shaped_flat n)

theorem shaped_sineBased (n : ℕ) : Shaped (sineBased n) n := shaped_map2 _ _ n (shaped_sines n)

theorem shaped_sineBased2 (n : ℕ) : Shaped (sineBased2 n) n := shaped_map2 _ _ n (shaped_sines n)

theorem shaped_asinBased (n : ℕ) : Shaped (asinBased n 1) n := shaped_map2 _ _ n (shaped_flat n)

theorem shaped_balanced (n : ℕ) : Shaped (balanced n) n := by
  obtain ⟨k, _, _, hk⟩ := balanced_eq_iterate n
  rw [hk]
  exact shaped_iterate_balance n k _ (shaped_sineBased n)

/-- Every registry entry produces a `Shaped` triangulation. -/
theorem registry_shaped : ∀ gf ∈ triangulationFns, ∀ n : ℕ, Shaped (gf.2 n) n := by
  intro gf hgf n
  simp only [triangulationFns, List.mem_cons, List.not_mem_nil, or_false] at hgf
  rcases hgf with h | h | h | h | h | h | h | h | h | h <;> subst h
  · exact shaped_flat n
  · exact shaped_sines n
  · exact shaped_triangulate _ n
  · exact shaped_triangulate _ n
  · exact shaped_triangulate _ n
  · exact shaped_triangulate _ n
  · exact shaped_sineBased n
  · exact shaped_sineBased2 n
  · exact shaped_asinBased n
  · exact shaped_balanced n

/-- Claim C1: for every `n ≥ 0` and every generator in the registry, the
returned triangulation has exactly `n+1` rows, row `i` has exactly `n-i+1`
points, and in particular the last row has exactly one point. -/
theorem generators_shaped : ∀ gf ∈ triangulationFns, ∀ n : ℕ,
    Shaped (gf.2 n) n ∧ ((gf.2 n).getD n []).length = 1 := by
  intro gf hgf n
  have h := registry_shaped gf hgf n
  refine ⟨h, ?_⟩
  rw [h.2 n (le_refl n)]
  omega

/-- Witness for C1: the first registry entry, evaluated at `n = 2`. -/
theorem generators_shaped_witness :
    Shaped (flat 2 1) 2 ∧ ((flat 2 1).getD 2 []).length = 1 :=
  generators_shaped ("flat", fun n => flat n 1) (by simp [triangulationFns]) 2

/-! The linear vertex index. -/

theorem rowVertices_zero (steps : ℕ) : rowVertices steps 0 = 0 := by
  simp [rowVertices]

theorem rowVertices_succ (steps i : ℕ) (h : i ≤ steps + 1) :
    rowVertices steps (i + 1) = rowVertices steps i + (steps + 1 - i) := by
  unfold rowVertices
  have hnum : (i + 1) * (2 * steps + 3 - (i + 1))
      = i * (2 * steps + 3 - i) + 2 * (steps + 1 - i) := by
    zify [show i + 1 ≤ 2 * steps + 3 by omega, show i ≤ 2 * steps + 3 by omega,
      show i ≤ steps + 1 by omega]
    ring
  rw [hnum, Nat.add_mul_div_left _ _ (by norm_num : 0 < 2)]

theorem rowVertices_mono (steps : ℕ) : ∀ k, k ≤ steps + 1 → ∀ i, i ≤ k →
    rowVertices steps i ≤ rowVertices steps k := by
  intro k
  induction k with
  | zero =>
    intro _ i hi
    have h0 : i = 0 := by omega
    subst h0
    exact le_refl _
  | succ k ih =>
    intro hk i hi
    rcases Nat.lt_or_ge i (k + 1) with hlt | hge
    · have h1 := ih (by omega) i (by omega)
      have h2 := rowVertices_succ steps k (by omega)
      omega
    · have : i = k + 1 := by omega
      subst this
      exact le_refl _

theorem nVertices_eq (n : ℕ) : nVertices n = (n + 1) * (n + 2) / 2 := by
  unfold nVertices rowVertices
  have h : 2 * n + 3 - (n + 1) = n + 2 := by omega
  rw [h]

/-- Row-major strict monotonicity of the vertex index on valid positions. -/
theorem vtx_lt_of_lex (n i j i2 j2 : ℕ) (hi : i ≤ n) (hj : j ≤ n - i) (hi2 : i2 ≤ n)
    (hj2 : j2 ≤ n - i2) (hlex : i < i2 ∨ (i = i2 ∧ j < j2)) :
    vtx n i j < vtx n i2 j2 := by
  unfold vtx
  rcases hlex with hlt | ⟨heq, hjj⟩
  · have h1 := rowVertices_succ n i (by omega)
    have h2 := rowVertices_mono n i2 (by omega) (i + 1) (by omega)
    omega
  · subst heq
    omega

theorem vtx_lt_nVertices (n i j : ℕ) (hi : i ≤ n) (hj : j ≤ n - i) :
    vtx n i j < nVertices n := by
  have h1 : vtx n i j < vtx n i (n - i) + 1 := by
    unfold vtx
    omega
  have h2 := rowVertices_succ n i (by omega)
  have h3 := rowVertices_mono n (n + 1) (by omega) (i + 1) (by omega)
  unfold nVertices
  unfold vtx at h1 ⊢
  omega

theorem vtx_surj (n : ℕ) : ∀ m, m < nVertices n →
    ∃ i j, i ≤ n ∧ j ≤ n - i ∧ vtx n i j = m := by
  intro m
  induction m with
  | zero =>
    intro _
    refine ⟨0, 0, by omega, by omega, ?_⟩
    simp [vtx, rowVertices]
  | succ m ih =>
    intro hm
    obtain ⟨i, j, hi, hj, hv⟩ := ih (by omega)
    unfold vtx at hv
    rcases Nat.lt_or_ge j (n - i) with hlt | hge
    · refine ⟨i, j + 1, hi, by omega, ?_⟩
      unfold vtx
      omega
    · rcases Nat.lt_or_ge i n with hin | hin
      · refine ⟨i + 1, 0, by omega, by omega, ?_⟩
        have hs := rowVertices_succ n i (by omega)
        unfold vtx
        omega
      · exfalso
        have hin2 : i = n := by omega
        rw [hin2] at hv hj
        have hs := rowVertices_succ n n (by omega)
        have hnv : m + 1 = nVertices n := by
          unfold nVertices
          omega
        omega

/-- Claim C8: the linear vertex index map `(i, j) ↦ i(2n+3-i)/2 + j` is a
bijection from the valid grid positions onto `[0, (n+1)(n+2)/2)` and orders
the positions row-major. -/
theorem vtx_bijection (n : ℕ) :
    (∀ i j, i ≤ n → j ≤ n - i → vtx n i j < (n + 1) * (n + 2) / 2) ∧
    (∀ i j i2 j2, i ≤ n → j ≤ n - i → i2 ≤ n → j2 ≤ n - i2 →
      vtx n i j = vtx n i2 j2 → i = i2 ∧ j = j2) ∧
    (∀ m, m < (n + 1) * (n + 2) / 2 → ∃ i j, i ≤ n ∧ j ≤ n - i ∧ vtx n i j = m) ∧
    (∀ i j i2 j2, i ≤ n → j ≤ n - i → i2 ≤ n → j2 ≤ n - i2 →
      (i < i2 ∨ (i = i2 ∧ j < j2)) → vtx n i j < vtx n i2 j2) := by
  refine ⟨?_, ?_, ?_, vtx_lt_of_lex n⟩
  · intro i j hi hj
    rw [← nVertices_eq]
    exact vtx_lt_nVertices n i j hi hj
  · intro i j i2 j2 hi hj hi2 hj2 heq
    rcases Nat.lt_trichotomy i i2 with hlt | hii | hgt
    · exact absurd heq (Nat.ne_of_lt (vtx_lt_of_lex n i j i2 j2 hi hj hi2 hj2 (Or.inl hlt)))
    · subst hii
      rcases Nat.lt_trichotomy j j2 with hlt | hjj | hgt
      · exact absurd heq
          (Nat.ne_of_lt (vtx_lt_of_lex n i j i j2 hi hj hi2 hj2 (Or.inr ⟨rfl, hlt⟩)))
      · exact ⟨rfl, hjj⟩
      · exact absurd heq.symm
          (Nat.ne_of_lt (vtx_lt_of_lex n i j2 i j hi2 hj2 hi hj (Or.inr ⟨rfl, hgt⟩)))
    · exact absurd heq.symm
        (Nat.ne_of_lt (vtx_lt_of_lex n i2 j2 i j hi2 hj2 hi hj (Or.inl hgt)))
  · intro m hm
    rw [← nVertices_eq] at hm
    exact vtx_surj n m hm

/-- Witness for C8, at `n = 2`: the bound, injectivity and row-major order
at concrete positions, and the preimage of the index 5. -/
theorem vtx_bijection_witness :
    vtx 2 1 1 < (2 + 1) * (2 + 2) / 2 ∧
    (∃ i j, i ≤ 2 ∧ j ≤ 2 - i ∧ vtx 2 i j = 5) ∧
    vtx 2 0 2 < vtx 2 1 0 :=
  ⟨(vtx_bijection 2).1 1 1 (by norm_num) (by norm_num),
   (vtx_bijection 2).2.2.1 5 (by norm_num),
   (vtx_bijection 2).2.2.2 0 2 1 0 (by norm_num) (by norm_num) (by norm_num) (by norm_num)
     (Or.inl (by norm_num))⟩

/-! Triangle count and index range of the mesh index builder. -/

theorem list_sum_range_eq (f : ℕ → ℕ) : ∀ m, ((List.range m).map f).sum
    = ∑ i in Finset.range m, f i := by
  intro m
  induction m with
  | zero => simp
  | succ m ih =>
    rw [List.range_succ, List.map_append, List.sum_append, Finset.sum_range_succ, ih]
    simp

theorem sum_row_triangle_count (m : ℕ) :
    ∑ j in Finset.range m, (if 0 < j then 2 else 1) = 2 * m - 1 := by
  induction m with
  | zero => decide
  | succ m ih =>
    rw [Finset.sum_range_succ, ih]
    rcases Nat.eq_zero_or_pos m with h0 | hpos
    · subst h0
      decide
    · rw [if_pos hpos]
      omega

theorem sum_two_per_row (m : ℕ) :
    ∑ i in Finset.range m, (if 0 < i then 2 else 0) = 2 * (m - 1) := by
  induction m with
  | zero => decide
  | succ m ih =>
    rw [Finset.sum_range_succ, ih]
    rcases Nat.eq_zero_or_pos m with h0 | hpos
    · subst h0
      decide
    · rw [if_pos hpos]
      omega

theorem sum_all_rows (n : ℕ) :
    ∑ i in Finset.range (n + 1), (if 0 < i then 2 * (n - i) + 1 else 0) = n ^ 2 := by
  induction n with
  | zero => decide
  | succ n ih =>
    rw [Finset.sum_range_succ]
    have hcong : ∀ i ∈ Finset.range (n + 1),
        (if 0 < i then 2 * (n + 1 - i) + 1 else 0)
          = (if 0 < i then 2 * (n - i) + 1 else 0) + (if 0 < i then 2 else 0) := by
      intro i hi
      rw [Finset.mem_range] at hi
      split_ifs <;> omega
    rw [Finset.sum_congr rfl hcong, Finset.sum_add_distrib, ih, sum_two_per_row]
    have hlast : (if 0 < n + 1 then 2 * (n + 1 - (n + 1)) + 1 else 0) = 1 := by
      rw [if_pos (by omega)]
      omega
    rw [hlast]
    ring_nf
    omega

theorem length_trianglesList (n : ℕ) : (trianglesList n).length = n ^ 2 := by
  unfold trianglesList
  rw [List.length_flatMap]
  have hrow : ∀ i, i < n + 1 →
      ((List.range (n + 1 - i)).flatMap (fun j =>
        (if 0 < i then [(vtx n (i - 1) j, vtx n (i - 1) (j + 1), vtx n i j)] else []) ++
        (if 0 < i ∧ 0 < j then [(vtx n i j, vtx n i (j - 1), vtx n (i - 1) j)] else []))).length
      = (if 0 < i then 2 * (n - i) + 1 else 0) := by
    intro i hi
    rw [List.length_flatMap]
    rcases Nat.eq_zero_or_pos i with h0 | hpos
    · subst h0
      simp [Function.comp_def]
    · have hcong : ∀ j,
          ((if 0 < i then [(vtx n (i - 1) j, vtx n (i - 1) (j + 1), vtx n i j)] else []) ++
           (if 0 < i ∧ 0 < j then [(vtx n i j, vtx n i (j - 1), vtx n (i - 1) j)] else [])).length
          = (if 0 < j then 2 else 1) := by
        intro j
        rw [List.length_append, if_pos hpos]
        rcases Nat.eq_zero_or_pos j with hj0 | hjpos
        · subst hj0
          simp
        · rw [if_pos ⟨hpos, hjpos⟩, if_pos hjpos]
          simp
      have : (List.map (List.length ∘ fun j =>
          (if 0 < i then [(vtx n (i - 1) j, vtx n (i - 1) (j + 1), vtx n i j)] else []) ++
          (if 0 < i ∧ 0 < j then [(vtx n i j, vtx n i (j - 1), vtx n (i - 1) j)] else []))
            (List.range (n + 1 - i))).sum
          = ((List.range (n + 1 - i)).map (fun j => if 0 < j then 2 else 1)).sum := by
        congr 1
        apply List.map_congr_left
        intro j _
        exact hcong j
      rw [this, list_sum_range_eq, sum_row_triangle_count (n + 1 - i), if_pos hpos]
      omega
  have : (List.map (List.length ∘ fun i =>
      (List.range (n + 1 - i)).flatMap (fun j =>
        (if 0 < i then [(vtx n (i - 1) j, vtx n (i - 1) (j + 1), vtx n i j)] else []) ++
        (if 0 < i ∧ 0 < j then [(vtx n i j, vtx n i (j - 1), vtx n (i - 1) j)] else [])))
        (List.range (n + 1))).sum
      = ((List.range (n + 1)).map (fun i => if 0 < i then 2 * (n - i) + 1 else 0)).sum := by
    congr 1
    apply List.map_congr_left
    intro i hi
    rw [List.mem_range] at hi
    exact hrow i hi
  rw [this, list_sum_range_eq, sum_all_rows]

theorem length_written_indices (n : ℕ) :
    ((trianglesList n).flatMap (fun t => [t.1, t.2.1, t.2.2])).length = 3 * n ^ 2 := by
  rw [List.length_flatMap]
  have : List.map (List.length ∘ fun (t : ℕ × ℕ × ℕ) => [t.1, t.2.1, t.2.2]) (trianglesList n)
      = List.map (fun _ => 3) (trianglesList n) := by
    apply List.map_congr_left
    intro t _
    rfl
  rw [this]
  have h2 : ∀ l : List (ℕ × ℕ × ℕ), (List.map (fun _ => 3) l).sum = 3 * l.length := by
    intro l
    induction l with
    | nil => rfl
    | cons a l ih =>
      simp [ih]
      ring
  rw [h2, length_trianglesList]

theorem length_indexBuffer (n : ℕ) : (indexBuffer n).length = 3 * nTriangles n := by
  unfold indexBuffer
  rw [List.length_append, List.length_replicate, length_written_indices]
  have h : 3 * n ^ 2 ≤ 3 * nTriangles n := by
    unfold nTriangles
    nlinarith [sq_nonneg n]
  omega

/-- Every triangle emitted by the vertex loop consists of valid grid
positions, hence of indices below the vertex count. -/
theorem trianglesList_indices_lt (n : ℕ) : ∀ e ∈ trianglesList n,
    e.1 < (n + 1) * (n + 2) / 2 ∧ e.2.1 < (n + 1) * (n + 2) / 2 ∧
    e.2.2 < (n + 1) * (n + 2) / 2 := by
  intro e he
  unfold trianglesList at he
  rw [List.mem_flatMap] at he
  obtain ⟨i, hi, he⟩ := he
  rw [List.mem_range] at hi
  rw [List.mem_flatMap] at he
  obtain ⟨j, hj, he⟩ := he
  rw [List.mem_range] at hj
  have bound : ∀ a b, a ≤ n → b ≤ n - a → vtx n a b < (n + 1) * (n + 2) / 2 := by
    intro a b ha hb
    rw [← nVertices_eq]
    exact vtx_lt_nVertices n a b ha hb
  rw [List.mem_append] at he
  rcases he with he | he
  · rcases Nat.eq_zero_or_pos i with h0 | hpos
    · subst h0
      simp at he
    · rw [if_pos hpos, List.mem_singleton] at he
      subst he
      exact ⟨bound (i - 1) j (by omega) (by omega),
        bound (i - 1) (j + 1) (by omega) (by omega),
        bound i j (by omega) (by omega)⟩
  · by_cases hc : 0 < i ∧ 0 < j
    · rw [if_pos hc, List.mem_singleton] at he
      subst he
      exact ⟨bound i j (by omega) (by omega),
        bound i (j - 1) (by omega) (by omega),
        bound (i - 1) j (by omega) (by omega)⟩
    · rw [if_neg hc] at he
      simp at he

/-- Corrected claim C2: the vertex loop emits exactly `n²` triangles and every
entry of the (over-allocated) index buffer lies in `[0, (n+1)(n+2)/2)`; the
buffer itself holds `3 * (6·2 + 12·2·n + 8·n²)` entries, the unwritten tail
being zero. -/
theorem claim2_amended (n : ℕ) (hn : 1 ≤ n) :
    (trianglesList n).length = n ^ 2 ∧
    (indexBuffer n).length = 3 * nTriangles n ∧
    ∀ e ∈ indexBuffer n, e < (n + 1) * (n + 2) / 2 := by
  refine ⟨length_trianglesList n, length_indexBuffer n, ?_⟩
  intro e he
  unfold indexBuffer at he
  rw [List.mem_append] at he
  rcases he with he | he
  · rw [List.mem_flatMap] at he
    obtain ⟨t, ht, he⟩ := he
    have h3 := trianglesList_indices_lt n t ht
    simp only [List.mem_cons, List.not_mem_nil, or_false, List.mem_singleton] at he
    rcases he with he | he | he <;> subst he
    · exact h3.1
    · exact h3.2.1
    · exact h3.2.2
  · have h0 := List.eq_of_mem_replicate he
    subst h0
    have h2 : 2 ≤ (n + 1) * (n + 2) := by nlinarith
    omega

/-- Counterexample to claim C2 as stated: at `n = 1` the index buffer
allocated by the mesh builder holds `nTriangles 1 = 44` triangle slots
(132 entries), not `n² = 1` triangles (3 entries). -/
theorem claim2_counterexample :
    nTriangles 1 = 44 ∧ (indexBuffer 1).length = 132 ∧ (indexBuffer 1).length ≠ 3 * 1 ^ 2 := by
  refine ⟨by decide, ?_, ?_⟩
  · rw [length_indexBuffer]
    decide
  · rw [length_indexBuffer]
    decide

/-- Witness for the amended claim C2, at `n = 1`. -/
theorem claim2_amended_witness :
    (trianglesList 1).length = 1 ^ 2 ∧
    (indexBuffer 1).length = 3 * nTriangles 1 ∧
    ∀ e ∈ indexBuffer 1, e < (1 + 1) * (1 + 2) / 2 :=
  claim2_amended 1 (le_refl 1)

/-! The adjacency branches of the dihedral-bend metric. -/

/-- Index of the first far triangle vertex, `(ia, ja) = (i+di+dj, j-di)`
(`index.ts`, line 416). -/
def adjacentIndexA (i j di dj : ℤ) : ℤ × ℤ := (i + di + dj, j - di)

/-- Index of the second far triangle vertex, `(ib, jb) = (i-dj, j+di+dj)`
(`index.ts`, line 417). -/
def adjacentIndexB (i j di dj : ℤ) : ℤ × ℤ := (i - dj, j + di + dj)

/-- Claim C10: for every forward edge of the dihedral-bend metric, at most one
of the three boundary conditions `ib < 0`, `ja < 0`, `ib + jb > n` holds, and
when none holds both far vertices `(ia, ja)` and `(ib, jb)` are valid grid
positions. -/
theorem dihedral_branches (n i j di dj : ℤ) (_hn : 1 ≤ n) (hi : 0 ≤ i) (hj : 0 ≤ j)
    (_hij : i + j ≤ n) (hd : (di, dj) ∈ forwardNeighborOffsets)
    (hi2 : 0 ≤ i + di) (hj2 : 0 ≤ j + dj) (hk2 : i + di + (j + dj) ≤ n) :
    (¬((adjacentIndexB i j di dj).1 < 0 ∧ (adjacentIndexA i j di dj).2 < 0) ∧
     ¬((adjacentIndexB i j di dj).1 < 0 ∧
        (adjacentIndexB i j di dj).1 + (adjacentIndexB i j di dj).2 > n) ∧
     ¬((adjacentIndexA i j di dj).2 < 0 ∧
        (adjacentIndexB i j di dj).1 + (adjacentIndexB i j di dj).2 > n)) ∧
    (¬((adjacentIndexB i j di dj).1 < 0) → ¬((adjacentIndexA i j di dj).2 < 0) →
     ¬((adjacentIndexB i j di dj).1 + (adjacentIndexB i j di dj).2 > n) →
      0 ≤ (adjacentIndexA i j di dj).1 ∧ 0 ≤ (adjacentIndexA i j di dj).2 ∧
      (adjacentIndexA i j di dj).1 + (adjacentIndexA i j di dj).2 ≤ n ∧
      0 ≤ (adjacentIndexB i j di dj).1 ∧ 0 ≤ (adjacentIndexB i j di dj).2 ∧
      (adjacentIndexB i j di dj).1 + (adjacentIndexB i j di dj).2 ≤ n) := by
  simp only [forwardNeighborOffsets, List.mem_cons, List.not_mem_nil, or_false,
    Prod.mk.injEq] at hd
  rcases hd with ⟨e1, e2⟩ | ⟨e1, e2⟩ | ⟨e1, e2⟩ <;> subst e1 <;> subst e2 <;>
    simp only [adjacentIndexA, adjacentIndexB] <;>
    refine ⟨⟨?_, ?_, ?_⟩, ?_⟩ <;> omega

/-- Witness for C10: the edge from `(0, 0)` with offset `(1, 0)` at `n = 2`. -/
theorem dihedral_branches_witness :
    (¬((adjacentIndexB 0 0 1 0).1 < 0 ∧ (adjacentIndexA 0 0 1 0).2 < 0) ∧
     ¬((adjacentIndexB 0 0 1 0).1 < 0 ∧
        (adjacentIndexB 0 0 1 0).1 + (adjacentIndexB 0 0 1 0).2 > 2) ∧
     ¬((adjacentIndexA 0 0 1 0).2 < 0 ∧
        (adjacentIndexB 0 0 1 0).1 + (adjacentIndexB 0 0 1 0).2 > 2)) ∧
    (¬((adjacentIndexB 0 0 1 0).1 < 0) → ¬((adjacentIndexA 0 0 1 0).2 < 0) →
     ¬((adjacentIndexB 0 0 1 0).1 + (adjacentIndexB 0 0 1 0).2 > 2) →
      0 ≤ (adjacentIndexA 0 0 1 0).1 ∧ 0 ≤ (adjacentIndexA 0 0 1 0).2 ∧
      (adjacentIndexA 0 0 1 0).1 + (adjacentIndexA 0 0 1 0).2 ≤ 2 ∧
      0 ≤ (adjacentIndexB 0 0 1 0).1 ∧ 0 ≤ (adjacentIndexB 0 0 1 0).2 ∧
      (adjacentIndexB 0 0 1 0).1 + (adjacentIndexB 0 0 1 0).2 ≤ 2) :=
  dihedral_branches 2 0 0 1 0 (by decide) (by decide) (by decide) (by decide)
    (by decide) (by decide) (by decide) (by decide)

/-! The degenerate case `n = 0`. -/

theorem forwardEdges_zero : forwardEdges 0 = [] := by decide

/-- Amended claim C9: at `n = 0` every registry generator returns a valid
single-row, single-point triangulation, the mesh index builder emits zero
triangles, but the quality metrics find no forward edge, so the dihedral list
is empty and its sorted head (read as `dihedrals[0].bend` by the source)
does not exist. -/
theorem degenerate_case_zero :
    (∀ gf ∈ triangulationFns, (gf.2 0).length = 1 ∧ ((gf.2 0).getD 0 []).length = 1) ∧
    nVertices 0 = 1 ∧
    trianglesList 0 = [] ∧
    (∀ (b : Bool) (tri : Triangulation), dihedralsOf 0 b tri = []) ∧
    (∀ (b : Bool) (tri : Triangulation), maxBendOpt 0 b tri = none) := by
  have hd : ∀ (b : Bool) (tri : Triangulation), dihedralsOf 0 b tri = [] := by
    intro b tri
    unfold dihedralsOf
    rw [forwardEdges_zero]
    rfl
  refine ⟨?_, by decide, by decide, hd, ?_⟩
  · intro gf hgf
    have h := registry_shaped gf hgf 0
    exact ⟨h.1, by rw [h.2 0 (le_refl 0)]⟩
  · intro b tri
    unfold maxBendOpt
    rw [hd b tri]
    simp

/-- Counterexample to claim C9 as stated: running the quality metrics at
`n = 0` (here on the `geodesics` triangulation) yields an empty dihedral
list, so the read of `dihedrals[0].bend` has no value to return — the metrics
do not complete. -/
theorem degenerate_metrics_fail : maxBendOpt 0 false (geodesics 0 1) = none := by
  unfold maxBendOpt dihedralsOf
  rw [forwardEdges_zero]
  simp

/-- Witness for the amended claim C9: instantiating the registry part at the
first entry. -/
theorem degenerate_case_zero_witness :
    (flat 0 1).length = 1 ∧ ((flat 0 1).getD 0 []).length = 1 :=
  degenerate_case_zero.1 ("flat", fun n => flat n 1) (by simp [triangulationFns])

/-! Iteration budgets of the two iterative procedures. -/

theorem fsrLoop_iterate (p : V3) : ∀ fuel g, ∃ k, k ≤ fuel ∧
    (fsrLoop p fuel g).1 = (fsrStep p)^[k] g ∧
    ((fsrLoop p fuel g).2 = false → k = fuel) := by
  intro fuel
  induction fuel with
  | zero =>
    intro g
    exact ⟨0, le_refl 0, rfl, fun _ => rfl⟩
  | succ fuel ih =>
    intro g
    by_cases hc : vnorm (baryNormalize (asinV g) - p) < 1e-10
    · refine ⟨0, by omega, ?_, ?_⟩
      · rw [fsrLoop, if_pos hc]
        simp
      · rw [fsrLoop, if_pos hc]
        intro h
        simp at h
    · obtain ⟨k, h1, h2, h3⟩ := ih (fsrStep p g)
      refine ⟨k + 1, by omega, ?_, ?_⟩
      · rw [fsrLoop, if_neg hc, h2, ← Function.iterate_succ_apply]
      · rw [fsrLoop, if_neg hc]
        intro h
        rw [h3 h]

/-- No path of the convergence loop of `balanced` emits a warning. -/
theorem balancedLoopWarnings_nil (nV : ℕ) : ∀ fuel t, balancedLoopWarnings nV fuel t = [] := by
  intro fuel
  induction fuel with
  | zero =>
    intro t
    rfl
  | succ fuel ih =>
    intro t
    by_cases hc : Real.sqrt (distSqSumOf t (balance t) / (nV : ℝ)) < 1e-8
    · rw [balancedLoopWarnings, if_pos hc]
    · rw [balancedLoopWarnings, if_neg hc]
      exact ih (balance t)

/-- Amended claim C5: the sine-ratio solver performs at most 30 iterations and
the relaxation balancer at most 100 (stopping early once the root-mean-square
displacement falls below `1e-8`); both always return an iterate of their step
function — the last computed estimate — rather than failing. On exhausting its
budget the sine-ratio solver logs its warning, but the relaxation balancer
logs nothing: its loop contains no warning call. -/
theorem iteration_budgets :
    (∀ p : V3, ∃ k, k ≤ 30 ∧ findSineRatio p = (fsrStep p)^[k] (fsrSeed p) ∧
      ((fsrLoop p 30 (fsrSeed p)).2 = false → k = 30)) ∧
    (∀ n : ℕ, ∃ k, 1 ≤ k ∧ k ≤ 100 ∧ balanced n = balance^[k] (sineBased n) ∧
      (k < 100 →
        Real.sqrt (distSqSumOf (balance^[k - 1] (sineBased n)) (balance^[k] (sineBased n))
          / ((sineBased n).flatten.length : ℝ)) < 1e-8)) ∧
    (∀ p : V3, (fsrLoop p 30 (fsrSeed p)).2 = false →
      findSineRatioWarnings p = ["findSineRatio: iteration failed"]) ∧
    (∀ n : ℕ, balancedWarnings n = []) := by
  refine ⟨?_, ?_, ?_, ?_⟩
  · intro p
    obtain ⟨k, h1, h2, h3⟩ := fsrLoop_iterate p 30 (fsrSeed p)
    exact ⟨k, h1, h2, h3⟩
  · intro n
    unfold balanced
    exact balancedLoop_spec (sineBased n).flatten.length 100 (sineBased n) (by omega)
  · intro p h
    unfold findSineRatioWarnings
    rw [if_neg (by rw [h]; exact Bool.false_ne_true)]
  · intro n
    unfold balancedWarnings
    exact balancedLoopWarnings_nil _ 100 _

/-- Counterexample to claim C5 as stated: the relaxation balancer never logs
a warning — no path of its loop, including the one that exhausts the
100-iteration budget, contains a logging call (`part_000`, lines 134-148 hold
no `console.warn`); here evaluated at the application's default step count
`n = 12`. -/
theorem balancer_warning_counterexample : balancedWarnings 12 = [] := by
  unfold balancedWarnings
  exact balancedLoopWarnings_nil _ 100 _

/-! The success branch of the sine-ratio solver. -/

theorem fsrLoop_success (p : V3) : ∀ fuel g, (fsrLoop p fuel g).2 = true →
    vnorm (baryNormalize (asinV ((fsrLoop p fuel g).1)) - p) < 1e-10 := by
  intro fuel
  induction fuel with
  | zero =>
    intro g h
    simp [fsrLoop] at h
  | succ fuel ih =>
    intro g h
    by_cases hc : vnorm (baryNormalize (asinV g) - p) < 1e-10
    · rw [fsrLoop, if_pos hc]
      simpa using hc
    · rw [fsrLoop, if_neg hc] at h ⊢
      exact ih (fsrStep p g) h

/-- Claim C3: for a target on the octahedron face, whenever `findSineRatio`
returns through its success branch, the barycentric normalization of the
componentwise arcsine of the returned vector differs from the target by less
than `1e-10` in Euclidean norm. -/
theorem findSineRatio_success (p : V3) (_hx : 0 ≤ p.x) (_hy : 0 ≤ p.y) (_hz : 0 ≤ p.z)
    (_hsum : p.x + p.y + p.z = 1) (hsucc : (fsrLoop p 30 (fsrSeed p)).2 = true) :
    vnorm (baryNormalize (asinV (findSineRatio p)) - p) < 1e-10 := by
  unfold findSineRatio
  exact fsrLoop_success p 30 (fsrSeed p) hsucc

theorem vnorm_eq_one_of_sq (v : V3) (h : v.x * v.x + v.y * v.y + v.z * v.z = 1) :
    vnorm v = 1 := by
  unfold vnorm
  rw [h, Real.sqrt_one]

theorem normalize_of_vnorm_one (v : V3) (h : vnorm v = 1) : normalize v = v := by
  unfold normalize
  rw [h, if_neg one_ne_zero]
  unfold smul
  ext <;> simp

theorem vnorm_ex : vnorm ex = 1 :=
  vnorm_eq_one_of_sq ex (by unfold ex; norm_num)

theorem sinWarp_ex : sinWarp ex = ex := by
  unfold sinWarp ex TAU
  have h1 : 2 * Real.pi / 4 * 1 = Real.pi / 2 := by ring
  have h2 : 2 * Real.pi / 4 * 0 = 0 := by ring
  ext
  · show Real.sin (2 * Real.pi / 4 * 1) = 1
    rw [h1, Real.sin_pi_div_two]
  · show Real.sin (2 * Real.pi / 4 * 0) = 0
    rw [h2, Real.sin_zero]
  · show Real.sin (2 * Real.pi / 4 * 0) = 0
    rw [h2, Real.sin_zero]

theorem fsrSeed_ex : fsrSeed ex = ex := by
  unfold fsrSeed
  rw [sinWarp_ex]
  exact normalize_of_vnorm_one ex vnorm_ex

theorem fsrLoop_ex_flag : (fsrLoop ex 30 (fsrSeed ex)).2 = true := by
  have hasin : asinV ex = ⟨Real.pi / 2, 0, 0⟩ := by
    unfold asinV ex
    ext
    · exact Real.arcsin_one
    · exact Real.arcsin_zero
    · exact Real.arcsin_zero
  have hbary : baryNormalize ⟨Real.pi / 2, 0, 0⟩ = ex := by
    unfold baryNormalize baryNorm smul ex
    have hpi := Real.pi_ne_zero
    ext
    · show 1 / (Real.pi / 2 + 0 + 0) * (Real.pi / 2) = 1
      field_simp
    · show 1 / (Real.pi / 2 + 0 + 0) * 0 = 0
      ring
    · show 1 / (Real.pi / 2 + 0 + 0) * 0 = 0
      ring
  have hcond : vnorm (baryNormalize (asinV ex) - ex) < 1e-10 := by
    rw [hasin, hbary]
    have hz : ex - ex = vzero := by
      unfold ex vzero
      ext <;> simp
    rw [hz]
    have : vnorm vzero = 0 := by
      unfold vnorm vzero
      norm_num
    rw [this]
    norm_num
  rw [fsrSeed_ex, show (30 : ℕ) = 29 + 1 by norm_num, fsrLoop, if_pos hcond]

/-- Witness for C3: the corner target `ex = (1, 0, 0)` satisfies the face
hypotheses, the solver succeeds on it immediately, and the theorem's bound
holds there. -/
theorem findSineRatio_success_witness :
    (0 ≤ ex.x ∧ 0 ≤ ex.y ∧ 0 ≤ ex.z ∧ ex.x + ex.y + ex.z = 1 ∧
      (fsrLoop ex 30 (fsrSeed ex)).2 = true) ∧
    vnorm (baryNormalize (asinV (findSineRatio ex)) - ex) < 1e-10 := by
  have h1 : (0 : ℝ) ≤ ex.x := by unfold ex; norm_num
  have h2 : (0 : ℝ) ≤ ex.y := by unfold ex; norm_num
  have h3 : (0 : ℝ) ≤ ex.z := by unfold ex; norm_num
  have h4 : ex.x + ex.y + ex.z = 1 := by unfold ex; norm_num
  exact ⟨⟨h1, h2, h3, h4, fsrLoop_ex_flag⟩,
    findSineRatio_success ex h1 h2 h3 h4 fsrLoop_ex_flag⟩

/-! Pointwise characterization of the relaxation pass. -/

theorem getV_balance (t : Triangulation) (n i j : ℕ) (h : Shaped t n) (hi : i ≤ n)
    (hj : j ≤ n - i) : getV (balance t) i j = balanceAt t i j (getV t i j) := by
  unfold balance
  show ((t.mapIdx (fun i row => row.mapIdx (fun j v => balanceAt t i j v))).getD i []).getD j vzero
    = balanceAt t i j (getV t i j)
  rw [getD_mapIdx t _ i (by rw [h.1]; omega) [] []]
  rw [getD_mapIdx (t.getD i []) _ j (by rw [h.2 i hi]; omega) vzero vzero]
  rfl

/-- Case analysis of one relaxation pass at every class of grid position. -/
theorem balance_cases (t : Triangulation) (n : ℕ) (h : Shaped t n) :
    ∀ i j, i ≤ n → j ≤ n - i →
      ((0 < i ∧ 0 < j ∧ i + j < n) →
        getV (balance t) i j = mean [getV t (i + 1) (j - 1), getV t (i + 1) j,
          getV t i (j - 1), getV t i (j + 1), getV t (i - 1) j, getV t (i - 1) (j + 1)]) ∧
      ((i = 0 ∧ 0 < j ∧ j < n) →
        getV (balance t) i j = mean [getV t 0 (j - 1), getV t 0 (j + 1)]) ∧
      ((j = 0 ∧ 0 < i ∧ i < n) →
        getV (balance t) i j = mean [getV t (i - 1) 0, getV t (i + 1) 0]) ∧
      ((0 < i ∧ 0 < j ∧ i + j = n) →
        getV (balance t) i j = mean [getV t (i - 1) (j + 1), getV t (i + 1) (j - 1)]) ∧
      (((i = 0 ∧ j = 0) ∨ (i = 0 ∧ j = n) ∨ (i = n ∧ j = 0)) →
        getV (balance t) i j = getV t i j) := by
  intro i j hi hj
  have hb := getV_balance t n i j h hi hj
  have hlen := h.1
  refine ⟨?_, ?_, ?_, ?_, ?_⟩
  · rintro ⟨h1, h2, h3⟩
    rw [hb]
    simp only [balanceAt, hlen]
    rw [if_neg (by omega), if_neg (by omega), if_neg (by omega)]
  · rintro ⟨h1, h2, h3⟩
    rw [hb]
    simp only [balanceAt, hlen]
    subst h1
    rw [if_pos (by omega), if_neg (by omega)]
  · rintro ⟨h1, h2, h3⟩
    rw [hb]
    simp only [balanceAt, hlen]
    subst h1
    rw [if_neg (by omega), if_pos (by omega), if_neg (by omega)]
  · rintro ⟨h1, h2, h3⟩
    rw [hb]
    simp only [balanceAt, hlen]
    rw [if_neg (by omega), if_neg (by omega), if_pos (by omega), if_neg (by omega)]
  · intro hcorner
    rw [hb]
    simp only [balanceAt, hlen]
    rcases hcorner with ⟨h1, h2⟩ | ⟨h1, h2⟩ | ⟨h1, h2⟩ <;> subst h1 <;> subst h2
    · rw [if_pos (by omega), if_pos (by omega)]
    · rw [if_pos (by omega), if_pos (by omega)]
    · rcases Nat.eq_zero_or_pos i with hzero | hpos
      · rw [if_pos (by omega), if_pos (by omega)]
      · rw [if_neg (by omega), if_pos (by omega), if_pos (by omega)]

/-- Claim C4: per relaxation pass, every interior point becomes the normalized
mean of its six grid neighbors, every non-corner boundary point becomes the
(normalized) mean of its two collinear boundary neighbors, and the three
corner points are unchanged. -/
theorem balance_pointwise (t : Triangulation) (n : ℕ) (h : Shaped t n) :
    ∀ i j, i ≤ n → j ≤ n - i →
      ((0 < i ∧ 0 < j ∧ i + j < n) →
        getV (balance t) i j = mean [getV t (i + 1) (j - 1), getV t (i + 1) j,
          getV t i (j - 1), getV t i (j + 1), getV t (i - 1) j, getV t (i - 1) (j + 1)]) ∧
      ((i = 0 ∧ 0 < j ∧ j < n) →
        getV (balance t) i j = mean [getV t 0 (j - 1), getV t 0 (j + 1)]) ∧
      ((j = 0 ∧ 0 < i ∧ i < n) →
        getV (balance t) i j = mean [getV t (i - 1) 0, getV t (i + 1) 0]) ∧
      ((0 < i ∧ 0 < j ∧ i + j = n) →
        getV (balance t) i j = mean [getV t (i - 1) (j + 1), getV t (i + 1) (j - 1)]) ∧
      (((i = 0 ∧ j = 0) ∨ (i = 0 ∧ j = n) ∨ (i = n ∧ j = 0)) →
        getV (balance t) i j = getV t i j) :=
  balance_cases t n h

/-- A concrete well-shaped grid of order 3 used to witness C4. -/
noncomputable def sampleTri : Triangulation :=
  [[ex, ex, ex, ex], [ex, ex, ex], [ex, ex], [ex]]

theorem sampleTri_shaped : Shaped sampleTri 3 := by
  constructor
  · rfl
  · intro i hi
    interval_cases i <;> rfl

/-- Witness for C4: the interior point `(1,1)` and the corner `(0,0)` of a
concrete order-3 grid. -/
theorem balance_pointwise_witness :
    getV (balance sampleTri) 1 1 = mean [getV sampleTri (1 + 1) (1 - 1),
      getV sampleTri (1 + 1) 1, getV sampleTri 1 (1 - 1), getV sampleTri 1 (1 + 1),
      getV sampleTri (1 - 1) 1, getV sampleTri (1 - 1) (1 + 1)] ∧
    getV (balance sampleTri) 0 0 = getV sampleTri 0 0 :=
  ⟨(balance_pointwise sampleTri 3 sampleTri_shaped 1 1 (by norm_num) (by norm_num)).1
      ⟨by norm_num, by norm_num, by norm_num⟩,
   (balance_pointwise sampleTri 3 sampleTri_shaped 0 0 (by norm_num) (by norm_num)).2.2.2.2
      (Or.inl ⟨rfl, rfl⟩)⟩

/-! Unit-sphere membership of the generated vertices. -/

theorem flatF_eq (t u : ℝ) : flatF t u = ⟨(1 - u) * (1 - t), u, (1 - u) * t⟩ := by
  unfold flatF lerp ex ey ez smul
  ext <;> simp <;> ring

theorem baryNorm_flatF (t u : ℝ) : baryNorm (flatF t u) = 1 := by
  rw [flatF_eq]
  unfold baryNorm
  ring

theorem cast_div_unit (a b : ℕ) (h : a ≤ b) :
    0 ≤ (a : ℝ) / (b : ℝ) ∧ (a : ℝ) / (b : ℝ) ≤ 1 := by
  rcases Nat.eq_zero_or_pos b with h0 | hpos
  · subst h0
    have ha : a = 0 := by omega
    subst ha
    norm_num
  · have hb : (0 : ℝ) < (b : ℝ) := by
      exact_mod_cast hpos
    constructor
    · positivity
    · rw [div_le_one hb]
      exact_mod_cast h

theorem flatF_face (t u : ℝ) (ht0 : 0 ≤ t) (ht1 : t ≤ 1) (hu0 : 0 ≤ u) (hu1 : u ≤ 1) :
    0 ≤ (flatF t u).x ∧ (flatF t u).x ≤ 1 ∧ 0 ≤ (flatF t u).y ∧ (flatF t u).y ≤ 1 ∧
    0 ≤ (flatF t u).z ∧ (flatF t u).z ≤ 1 := by
  rw [flatF_eq]
  refine ⟨?_, ?_, ?_, ?_, ?_, ?_⟩ <;> simp <;> nlinarith

theorem sin_warp_nonneg (c : ℝ) (h0 : 0 ≤ c) (h1 : c ≤ 1) : 0 ≤ Real.sin (TAU / 4 * c) := by
  unfold TAU
  apply Real.sin_nonneg_of_nonneg_of_le_pi
  · have := Real.pi_pos
    nlinarith
  · have := Real.pi_pos
    nlinarith

theorem sin_warp_pos (c : ℝ) (h0 : 0 < c) (h1 : c ≤ 1) : 0 < Real.sin (TAU / 4 * c) := by
  unfold TAU
  apply Real.sin_pos_of_pos_of_lt_pi
  · have := Real.pi_pos
    nlinarith
  · have := Real.pi_pos
    nlinarith

theorem sin_warp_le_one (c : ℝ) : Real.sin (TAU / 4 * c) ≤ 1 := Real.sin_le_one _

/-- On a face point (componentwise in `[0,1]`, coordinates summing to 1) the
sine warp yields a nonnegative vector with positive coordinate sum. -/
theorem sinWarp_face (v : V3) (hx : 0 ≤ v.x) (hx1 : v.x ≤ 1) (hy : 0 ≤ v.y) (hy1 : v.y ≤ 1)
    (hz : 0 ≤ v.z) (hz1 : v.z ≤ 1) (hsum : baryNorm v = 1) :
    0 ≤ (sinWarp v).x ∧ (sinWarp v).x ≤ 1 ∧ 0 ≤ (sinWarp v).y ∧ (sinWarp v).y ≤ 1 ∧
    0 ≤ (sinWarp v).z ∧ (sinWarp v).z ≤ 1 ∧ 0 < baryNorm (sinWarp v) := by
  unfold baryNorm at hsum
  have hpos : 0 < v.x ∨ 0 < v.y ∨ 0 < v.z := by
    by_contra hcon
    push_neg at hcon
    obtain ⟨a, b, c⟩ := hcon
    linarith
  refine ⟨sin_warp_nonneg v.x hx hx1, sin_warp_le_one v.x, sin_warp_nonneg v.y hy hy1,
    sin_warp_le_one v.y, sin_warp_nonneg v.z hz hz1, sin_warp_le_one v.z, ?_⟩
  unfold baryNorm sinWarp
  have n1 := sin_warp_nonneg v.x hx hx1
  have n2 := sin_warp_nonneg v.y hy hy1
  have n3 := sin_warp_nonneg v.z hz hz1
  rcases hpos with hp | hp | hp
  · have := sin_warp_pos v.x hp hx1
    simp only
    linarith
  · have := sin_warp_pos v.y hp hy1
    simp only
    linarith
  · have := sin_warp_pos v.z hp hz1
    simp only
    linarith

theorem getV_flat (n i j : ℕ) (hi : i ≤ n) (hj : j ≤ n - i) :
    getV (flat n 1) i j = flatF ((j : ℝ) / ((n - i : ℕ) : ℝ)) ((i : ℝ) / (n : ℝ)) := by
  unfold flat
  rw [getV_triangulate flatF n 1 i j hi (by omega)]
  norm_num

theorem getV_sines (n i j : ℕ) (hi : i ≤ n) (hj : j ≤ n - i) :
    getV (sines n) i j = sinWarp (getV (flat n 1) i j) :=
  getV_map2 (flat n 1) sinWarp n i j (shaped_flat n) hi hj

theorem getV_sineBased (n i j : ℕ) (hi : i ≤ n) (hj : j ≤ n - i) :
    getV (sineBased n) i j = normalize (getV (sines n) i j) :=
  getV_map2 (sines n) normalize n i j (shaped_sines n) hi hj

theorem getV_sineBased2 (n i j : ℕ) (hi : i ≤ n) (hj : j ≤ n - i) :
    getV (sineBased2 n) i j = proj (getV (sines n) i j) :=
  getV_map2 (sines n) proj n i j (shaped_sines n) hi hj

theorem getV_asinBased (n i j : ℕ) (hi : i ≤ n) (hj : j ≤ n - i) :
    getV (asinBased n 1) i j = findSineRatio (getV (flat n 1) i j) :=
  getV_map2 (flat n 1) _ n i j (shaped_flat n) hi hj

theorem getV_geodesics (n i j : ℕ) (hi : i ≤ n) (hj : j ≤ n - i) :
    getV (geodesics n 1) i j =
      normalize (flatF ((j : ℝ) / ((n - i : ℕ) : ℝ)) ((i : ℝ) / (n : ℝ))) := by
  unfold geodesics
  rw [getV_triangulate _ n 1 i j hi (by omega)]
  norm_num

/-- The norm of every `geodesics` vertex is exactly 1. -/
theorem vnorm_geodesics (n i j : ℕ) (hi : i ≤ n) (hj : j ≤ n - i) :
    vnorm (getV (geodesics n 1) i j) = 1 := by
  rw [getV_geodesics n i j hi hj]
  apply vnorm_of_normalize
  apply vnorm_ne_zero_of_baryNorm
  rw [baryNorm_flatF]
  norm_num

/-- The warped point at a valid grid position: components in `[0,1]` and
positive coordinate sum. -/
theorem sines_face (n i j : ℕ) (hi : i ≤ n) (hj : j ≤ n - i) :
    0 ≤ (getV (sines n) i j).x ∧ (getV (sines n) i j).x ≤ 1 ∧
    0 ≤ (getV (sines n) i j).y ∧ (getV (sines n) i j).y ≤ 1 ∧
    0 ≤ (getV (sines n) i j).z ∧ (getV (sines n) i j).z ≤ 1 ∧
    0 < baryNorm (getV (sines n) i j) := by
  rw [getV_sines n i j hi hj, getV_flat n i j hi hj]
  obtain ⟨ht0, ht1⟩ := cast_div_unit j (n - i) hj
  obtain ⟨hu0, hu1⟩ := cast_div_unit i n hi
  obtain ⟨a1, a2, a3, a4, a5, a6⟩ := flatF_face _ _ ht0 ht1 hu0 hu1
  exact sinWarp_face _ a1 a2 a3 a4 a5 a6 (baryNorm_flatF _ _)

/-- The norm of every `sineBased` vertex is exactly 1. -/
theorem vnorm_sineBased (n i j : ℕ) (hi : i ≤ n) (hj : j ≤ n - i) :
    vnorm (getV (sineBased n) i j) = 1 := by
  rw [getV_sineBased n i j hi hj]
  apply vnorm_of_normalize
  apply vnorm_ne_zero_of_baryNorm
  exact ne_of_gt (sines_face n i j hi hj).2.2.2.2.2.2

/-- The parallel projection of a point with components in `[0,1]` lies exactly
on the unit sphere. -/
theorem vnorm_proj (p : V3) (hx : 0 ≤ p.x) (hx1 : p.x ≤ 1) (hy : 0 ≤ p.y) (hy1 : p.y ≤ 1)
    (hz : 0 ≤ p.z) (hz1 : p.z ≤ 1) : vnorm (proj p) = 1 := by
  have hD : 0 ≤ 2 * (p.x * p.y + p.x * p.z + p.y * p.z
      - p.x * p.x - p.y * p.y - p.z * p.z) + 3 := by
    nlinarith [sq_nonneg (p.x + p.y + p.z - 3 / 2), mul_nonneg hx (sub_nonneg.mpr hx1),
      mul_nonneg hy (sub_nonneg.mpr hy1), mul_nonneg hz (sub_nonneg.mpr hz1)]
  have hsq := Real.mul_self_sqrt hD
  apply vnorm_eq_one_of_sq
  simp only [proj]
  linear_combination hsq / 3

/-- The norm of every `sineBased2` vertex is exactly 1. -/
theorem vnorm_sineBased2 (n i j : ℕ) (hi : i ≤ n) (hj : j ≤ n - i) :
    vnorm (getV (sineBased2 n) i j) = 1 := by
  rw [getV_sineBased2 n i j hi hj]
  obtain ⟨a1, a2, a3, a4, a5, a6, _⟩ := sines_face n i j hi hj
  exact vnorm_proj _ a1 a2 a3 a4 a5 a6

/-! Unit norm of the sine-ratio solver's result. -/

theorem baryNorm_smul (c : ℝ) (v : V3) : baryNorm (smul c v) = c * baryNorm v := by
  unfold baryNorm smul
  ring

theorem baryNorm_sub (a b : V3) : baryNorm (a - b) = baryNorm a - baryNorm b := by
  unfold baryNorm
  simp
  ring

theorem baryNorm_baryNormalize (v : V3) :
    baryNorm (baryNormalize v) = if baryNorm v = 0 then 0 else 1 := by
  unfold baryNormalize
  rw [baryNorm_smul]
  by_cases h : baryNorm v = 0
  · rw [if_pos h, h]
    ring
  · rw [if_neg h]
    field_simp

/-- A normalized nonzero-coordinate-sum vector is a unit vector with positive
coordinate sum. -/
theorem normalize_unitPos (v : V3) (h : 0 < baryNorm v) :
    vnorm (normalize v) = 1 ∧ 0 < baryNorm (normalize v) := by
  have hv : vnorm v ≠ 0 := vnorm_ne_zero_of_baryNorm v (ne_of_gt h)
  have hvpos : 0 < vnorm v := lt_of_le_of_ne (vnorm_nonneg v) (Ne.symm hv)
  refine ⟨vnorm_of_normalize v hv, ?_⟩
  unfold normalize
  rw [if_neg hv, baryNorm_smul]
  positivity

theorem fsrStep_unitPos (p g : V3) (hp : baryNorm p = 1) (hg : 0 < baryNorm g) :
    vnorm (fsrStep p g) = 1 ∧ 0 < baryNorm (fsrStep p g) := by
  unfold fsrStep
  apply normalize_unitPos
  rw [baryNorm_sub, baryNorm_sub, baryNorm_baryNormalize, baryNorm_baryNormalize,
    if_neg (ne_of_gt hg), hp]
  by_cases h : baryNorm (asinV g) = 0
  · rw [if_pos h]
    norm_num
  · rw [if_neg h]
    norm_num

theorem fsrLoop_unitPos (p : V3) (hp : baryNorm p = 1) : ∀ fuel g,
    vnorm g = 1 ∧ 0 < baryNorm g →
    vnorm (fsrLoop p fuel g).1 = 1 ∧ 0 < baryNorm (fsrLoop p fuel g).1 := by
  intro fuel
  induction fuel with
  | zero =>
    intro g hg
    exact hg
  | succ fuel ih =>
    intro g hg
    by_cases hc : vnorm (baryNormalize (asinV g) - p) < 1e-10
    · rw [fsrLoop, if_pos hc]
      exact hg
    · rw [fsrLoop, if_neg hc]
      exact ih (fsrStep p g) (fsrStep_unitPos p g hp hg.2)

/-- On a face target, `findSineRatio` returns a unit vector. -/
theorem vnorm_findSineRatio (p : V3) (hx : 0 ≤ p.x) (hx1 : p.x ≤ 1) (hy : 0 ≤ p.y)
    (hy1 : p.y ≤ 1) (hz : 0 ≤ p.z) (hz1 : p.z ≤ 1) (hsum : baryNorm p = 1) :
    vnorm (findSineRatio p) = 1 := by
  unfold findSineRatio
  have hface := sinWarp_face p hx hx1 hy hy1 hz hz1 hsum
  have hseed : vnorm (fsrSeed p) = 1 ∧ 0 < baryNorm (fsrSeed p) := by
    unfold fsrSeed
    exact normalize_unitPos (sinWarp p) hface.2.2.2.2.2.2
  exact (fsrLoop_unitPos p hsum 30 (fsrSeed p) hseed).1

/-- The norm of every `asinBased` vertex is exactly 1. -/
theorem vnorm_asinBased (n i j : ℕ) (hi : i ≤ n) (hj : j ≤ n - i) :
    vnorm (getV (asinBased n 1) i j) = 1 := by
  rw [getV_asinBased n i j hi hj, getV_flat n i j hi hj]
  obtain ⟨ht0, ht1⟩ := cast_div_unit j (n - i) hj
  obtain ⟨hu0, hu1⟩ := cast_div_unit i n hi
  obtain ⟨a1, a2, a3, a4, a5, a6⟩ := flatF_face _ _ ht0 ht1 hu0 hu1
  exact vnorm_findSineRatio _ a1 a2 a3 a4 a5 a6 (baryNorm_flatF _ _)

/-! Unit norm of the balanced vertices. -/

/-- Every valid grid point is a nonnegative unit vector. -/
def GridNonnegUnit (t : Triangulation) (n : ℕ) : Prop :=
  ∀ i j, i ≤ n → j ≤ n - i →
    0 ≤ (getV t i j).x ∧ 0 ≤ (getV t i j).y ∧ 0 ≤ (getV t i j).z ∧ vnorm (getV t i j) = 1

theorem baryNorm_ge_one (v : V3) (hx : 0 ≤ v.x) (hy : 0 ≤ v.y) (hz : 0 ≤ v.z)
    (hn : vnorm v = 1) : 1 ≤ baryNorm v := by
  have hq : v.x * v.x + v.y * v.y + v.z * v.z = 1 := by
    have h0 : 0 ≤ v.x * v.x + v.y * v.y + v.z * v.z := by
      nlinarith
    have := Real.sqrt_eq_iff_mul_self_eq (by nlinarith) (by norm_num : (0:ℝ) ≤ 1) |>.mp
    unfold vnorm at hn
    nlinarith [Real.sq_sqrt h0, Real.sqrt_nonneg (v.x * v.x + v.y * v.y + v.z * v.z), hn]
  unfold baryNorm
  nlinarith [mul_nonneg hx hy, mul_nonneg hx hz, mul_nonneg hy hz]

theorem foldl_add_components : ∀ (l : List V3) (acc : V3),
    (l.foldl (fun sum v => sum + v) acc).x = acc.x + (l.map V3.x).sum ∧
    (l.foldl (fun sum v => sum + v) acc).y = acc.y + (l.map V3.y).sum ∧
    (l.foldl (fun sum v => sum + v) acc).z = acc.z + (l.map V3.z).sum := by
  intro l
  induction l with
  | nil =>
    intro acc
    simp
  | cons a l ih =>
    intro acc
    simp only [List.foldl_cons, List.map_cons, List.sum_cons]
    obtain ⟨h1, h2, h3⟩ := ih (acc + a)
    refine ⟨?_, ?_, ?_⟩
    · rw [h1]
      simp
      ring
    · rw [h2]
      simp
      ring
    · rw [h3]
      simp
      ring

theorem list_sum_ge_length {l : List ℝ} (h : ∀ x ∈ l, 1 ≤ x) : (l.length : ℝ) ≤ l.sum := by
  induction l with
  | nil => simp
  | cons a l ih =>
    simp only [List.length_cons, List.sum_cons]
    have h1 := h a (List.mem_cons_self a l)
    have h2 := ih (fun x hx => h x (List.mem_cons_of_mem a hx))
    push_cast
    linarith

theorem list_sum_nonneg {l : List ℝ} (h : ∀ x ∈ l, 0 ≤ x) : 0 ≤ l.sum := by
  induction l with
  | nil => simp
  | cons a l ih =>
    simp only [List.sum_cons]
    have h1 := h a (List.mem_cons_self a l)
    have h2 := ih (fun x hx => h x (List.mem_cons_of_mem a hx))
    linarith

theorem sum_components_eq_baryNorm : ∀ l : List V3,
    (l.map V3.x).sum + (l.map V3.y).sum + (l.map V3.z).sum = (l.map baryNorm).sum := by
  intro l
  induction l with
  | nil => simp
  | cons a l ih =>
    simp only [List.map_cons, List.sum_cons]
    rw [← ih]
    unfold baryNorm
    ring

/-- The normalized mean of a nonempty list of nonnegative unit vectors is a
nonnegative unit vector. -/
theorem mean_nonnegUnit (l : List V3) (hne : l ≠ [])
    (h : ∀ v ∈ l, 0 ≤ v.x ∧ 0 ≤ v.y ∧ 0 ≤ v.z ∧ vnorm v = 1) :
    0 ≤ (mean l).x ∧ 0 ≤ (mean l).y ∧ 0 ≤ (mean l).z ∧ vnorm (mean l) = 1 := by
  unfold mean
  obtain ⟨hx, hy, hz⟩ := foldl_add_components l vzero
  have hxs : 0 ≤ (l.foldl (fun sum v => sum + v) vzero).x := by
    rw [hx]
    have : 0 ≤ (l.map V3.x).sum :=
      list_sum_nonneg (by
        intro x hxl
        rw [List.mem_map] at hxl
        obtain ⟨v, hv, hvx⟩ := hxl
        rw [← hvx]
        exact (h v hv).1)
    unfold vzero
    simpa using this
  have hys : 0 ≤ (l.foldl (fun sum v => sum + v) vzero).y := by
    rw [hy]
    have : 0 ≤ (l.map V3.y).sum :=
      list_sum_nonneg (by
        intro x hxl
        rw [List.mem_map] at hxl
        obtain ⟨v, hv, hvx⟩ := hxl
        rw [← hvx]
        exact (h v hv).2.1)
    unfold vzero
    simpa using this
  have hzs : 0 ≤ (l.foldl (fun sum v => sum + v) vzero).z := by
    rw [hz]
    have : 0 ≤ (l.map V3.z).sum :=
      list_sum_nonneg (by
        intro x hxl
        rw [List.mem_map] at hxl
        obtain ⟨v, hv, hvx⟩ := hxl
        rw [← hvx]
        exact (h v hv).2.2.1)
    unfold vzero
    simpa using this
  have hbary : 0 < baryNorm (l.foldl (fun sum v => sum + v) vzero) := by
    unfold baryNorm
    rw [hx, hy, hz]
    have hsum : (l.length : ℝ) ≤ (l.map V3.x).sum + (l.map V3.y).sum + (l.map V3.z).sum := by
      rw [sum_components_eq_baryNorm l, ← List.length_map l baryNorm]
      apply list_sum_ge_length
      intro x hxl
      rw [List.mem_map] at hxl
      obtain ⟨v, hv, hvx⟩ := hxl
      rw [← hvx]
      obtain ⟨b1, b2, b3, b4⟩ := h v hv
      exact baryNorm_ge_one v b1 b2 b3 b4
    have hlen : (1 : ℝ) ≤ (l.length : ℝ) := by
      have : 1 ≤ l.length := by
        cases l with
        | nil => exact absurd rfl hne
        | cons a l => simp
      exact_mod_cast this
    unfold vzero
    simp only
    linarith
  obtain ⟨hunit, _⟩ := normalize_unitPos _ hbary
  have hnz : vnorm (l.foldl (fun sum v => sum + v) vzero) ≠ 0 :=
    vnorm_ne_zero_of_baryNorm _ (ne_of_gt hbary)
  have hvpos : 0 < vnorm (l.foldl (fun sum v => sum + v) vzero) :=
    lt_of_le_of_ne (vnorm_nonneg _) (Ne.symm hnz)
  unfold normalize
  rw [if_neg hnz]
  unfold smul
  refine ⟨?_, ?_, ?_, ?_⟩
  · exact mul_nonneg (by positivity) hxs
  · exact mul_nonneg (by positivity) hys
  · exact mul_nonneg (by positivity) hzs
  · have := vnorm_of_normalize _ hnz
    unfold normalize at this
    rwa [if_neg hnz] at this

theorem normalize_nonnegUnit (v : V3) (hx : 0 ≤ v.x) (hy : 0 ≤ v.y) (hz : 0 ≤ v.z)
    (hb : 0 < baryNorm v) :
    0 ≤ (normalize v).x ∧ 0 ≤ (normalize v).y ∧ 0 ≤ (normalize v).z ∧
    vnorm (normalize v) = 1 := by
  have hnz : vnorm v ≠ 0 := vnorm_ne_zero_of_baryNorm v (ne_of_gt hb)
  have hvpos : 0 < vnorm v := lt_of_le_of_ne (vnorm_nonneg v) (Ne.symm hnz)
  unfold normalize
  rw [if_neg hnz]
  unfold smul
  refine ⟨mul_nonneg (by positivity) hx, mul_nonneg (by positivity) hy,
    mul_nonneg (by positivity) hz, ?_⟩
  have := vnorm_of_normalize v hnz
  unfold normalize at this
  rwa [if_neg hnz] at this

/-- The `sineBased` seed consists of nonnegative unit vectors. -/
theorem sineBased_gridNonnegUnit (n : ℕ) : GridNonnegUnit (sineBased n) n := by
  intro i j hi hj
  rw [getV_sineBased n i j hi hj]
  obtain ⟨a1, _, a3, _, a5, _, a7⟩ := sines_face n i j hi hj
  exact normalize_nonnegUnit _ a1 a3 a5 a7

/-- The relaxation pass preserves the nonnegative-unit invariant. -/
theorem balance_gridNonnegUnit (t : Triangulation) (n : ℕ) (h : Shaped t n)
    (hg : GridNonnegUnit t n) : GridNonnegUnit (balance t) n := by
  intro i j hi hj
  have hc := balance_cases t n h i j hi hj
  have hmean2 : ∀ a1 b1 a2 b2, a1 ≤ n → b1 ≤ n - a1 → a2 ≤ n → b2 ≤ n - a2 →
      0 ≤ (mean [getV t a1 b1, getV t a2 b2]).x ∧
      0 ≤ (mean [getV t a1 b1, getV t a2 b2]).y ∧
      0 ≤ (mean [getV t a1 b1, getV t a2 b2]).z ∧
      vnorm (mean [getV t a1 b1, getV t a2 b2]) = 1 := by
    intro a1 b1 a2 b2 p1 p2 p3 p4
    apply mean_nonnegUnit _ (by simp)
    intro v hv
    simp only [List.mem_cons, List.not_mem_nil, or_false] at hv
    rcases hv with hv | hv <;> subst hv
    · exact hg a1 b1 p1 p2
    · exact hg a2 b2 p3 p4
  rcases Nat.eq_zero_or_pos i with hi0 | hipos
  · subst hi0
    rcases Nat.eq_zero_or_pos j with hj0 | hjpos
    · subst hj0
      rw [hc.2.2.2.2 (Or.inl ⟨rfl, rfl⟩)]
      exact hg 0 0 hi hj
    · rcases Nat.lt_or_ge j n with hjn | hjn
      · rw [hc.2.1 ⟨rfl, hjpos, hjn⟩]
        exact hmean2 0 (j - 1) 0 (j + 1) (by omega) (by omega) (by omega) (by omega)
      · have hje : j = n := by omega
        subst hje
        rw [hc.2.2.2.2 (Or.inr (Or.inl ⟨rfl, rfl⟩))]
        exact hg 0 j hi hj
  · rcases Nat.eq_zero_or_pos j with hj0 | hjpos
    · subst hj0
      rcases Nat.lt_or_ge i n with hin | hin
      · rw [hc.2.2.1 ⟨rfl, hipos, hin⟩]
        exact hmean2 (i - 1) 0 (i + 1) 0 (by omega) (by omega) (by omega) (by omega)
      · have hie : i = n := by omega
        subst hie
        rw [hc.2.2.2.2 (Or.inr (Or.inr ⟨rfl, rfl⟩))]
        exact hg i 0 hi hj
    · rcases Nat.lt_or_ge (i + j) n with hijn | hijn
      · rw [hc.1 ⟨hipos, hjpos, hijn⟩]
        apply mean_nonnegUnit _ (by simp)
        intro v hv
        simp only [List.mem_cons, List.not_mem_nil, or_false] at hv
        rcases hv with hv | hv | hv | hv | hv | hv <;> subst hv
        · exact hg (i + 1) (j - 1) (by omega) (by omega)
        · exact hg (i + 1) j (by omega) (by omega)
        · exact hg i (j - 1) (by omega) (by omega)
        · exact hg i (j + 1) (by omega) (by omega)
        · exact hg (i - 1) j (by omega) (by omega)
        · exact hg (i - 1) (j + 1) (by omega) (by omega)
      · have hije : i + j = n := by omega
        rw [hc.2.2.2.1 ⟨hipos, hjpos, hije⟩]
        exact hmean2 (i - 1) (j + 1) (i + 1) (j - 1) (by omega) (by omega) (by omega)
          (by omega)

theorem iterate_balance_gridNonnegUnit (n : ℕ) : ∀ k t, Shaped t n → GridNonnegUnit t n →
    GridNonnegUnit (balance^[k] t) n := by
  intro k
  induction k with
  | zero =>
    intro t _ hg
    simpa using hg
  | succ k ih =>
    intro t hs hg
    rw [Function.iterate_succ_apply]
    exact ih (balance t) (shaped_balance t n hs) (balance_gridNonnegUnit t n hs hg)

/-- The norm of every `balanced` vertex is exactly 1. -/
theorem vnorm_balanced (n i j : ℕ) (hi : i ≤ n) (hj : j ≤ n - i) :
    vnorm (getV (balanced n) i j) = 1 := by
  obtain ⟨k, _, _, hk⟩ := balanced_eq_iterate n
  rw [hk]
  exact (iterate_balance_gridNonnegUnit n k (sineBased n) (shaped_sineBased n)
    (sineBased_gridNonnegUnit n) i j hi hj).2.2.2

/-- Claim C6: every vertex of `geodesics`, `sineBased`, `sineBased2`,
`asinBased` and `balanced` has Euclidean norm 1 within `1e-6` (in exact real
arithmetic the norm is exactly 1), and the parallel projection `proj` of
`sineBased2` maps every warped point (components in `[0,1]`) exactly onto the
unit sphere. -/
theorem generators_unit_norm :
    (∀ n i j, i ≤ n → j ≤ n - i →
      |vnorm (getV (geodesics n 1) i j) - 1| ≤ 1e-6 ∧
      |vnorm (getV (sineBased n) i j) - 1| ≤ 1e-6 ∧
      |vnorm (getV (sineBased2 n) i j) - 1| ≤ 1e-6 ∧
      |vnorm (getV (asinBased n 1) i j) - 1| ≤ 1e-6 ∧
      |vnorm (getV (balanced n) i j) - 1| ≤ 1e-6) ∧
    (∀ p : V3, 0 ≤ p.x → p.x ≤ 1 → 0 ≤ p.y → p.y ≤ 1 → 0 ≤ p.z → p.z ≤ 1 →
      vnorm (proj p) = 1) := by
  constructor
  · intro n i j hi hj
    rw [vnorm_geodesics n i j hi hj, vnorm_sineBased n i j hi hj,
      vnorm_sineBased2 n i j hi hj, vnorm_asinBased n i j hi hj,
      vnorm_balanced n i j hi hj]
    norm_num
  · intro p h1 h2 h3 h4 h5 h6
    exact vnorm_proj p h1 h2 h3 h4 h5 h6

/-- Witness for C6: the apex vertex of each generator at `n = 0`, and the
projection of `ez`. -/
theorem generators_unit_norm_witness :
    (|vnorm (getV (geodesics 0 1) 0 0) - 1| ≤ 1e-6 ∧
     |vnorm (getV (sineBased 0) 0 0) - 1| ≤ 1e-6 ∧
     |vnorm (getV (sineBased2 0) 0 0) - 1| ≤ 1e-6 ∧
     |vnorm (getV (asinBased 0 1) 0 0) - 1| ≤ 1e-6 ∧
     |vnorm (getV (balanced 0) 0 0) - 1| ≤ 1e-6) ∧
    vnorm (proj ez) = 1 :=
  ⟨generators_unit_norm.1 0 0 0 (le_refl 0) (le_refl 0),
   generators_unit_norm.2 ez (by norm_num [ez]) (by norm_num [ez]) (by norm_num [ez])
     (by norm_num [ez]) (by norm_num [ez]) (by norm_num [ez])⟩

/-! Agreement of `sineBased` and `sineBased2` on the boundary, difference in
the interior. -/

theorem proj_of_unit (p : V3) (hq : p.x * p.x + p.y * p.y + p.z * p.z = 1)
    (hs : 0 ≤ p.x + p.y + p.z) : proj p = p := by
  have hD : 2 * (p.x * p.y + p.x * p.z + p.y * p.z - p.x * p.x - p.y * p.y - p.z * p.z) + 3
      = (p.x + p.y + p.z) * (p.x + p.y + p.z) := by
    linear_combination (-3 : ℝ) * hq
  simp only [proj]
  rw [hD, Real.sqrt_mul_self hs]
  ext <;> dsimp only <;> ring

theorem normalize_eq_proj_of_unit (w : V3) (hq : w.x * w.x + w.y * w.y + w.z * w.z = 1)
    (hs : 0 ≤ w.x + w.y + w.z) : normalize w = proj w := by
  rw [normalize_of_vnorm_one w (vnorm_eq_one_of_sq w hq), proj_of_unit w hq hs]

theorem sin_sq_complement (a b : ℝ) (hab : a + b = 1) :
    Real.sin (TAU / 4 * a) * Real.sin (TAU / 4 * a)
      + Real.sin (TAU / 4 * b) * Real.sin (TAU / 4 * b) = 1 := by
  have hb : b = 1 - a := by linarith
  subst hb
  have h : TAU / 4 * (1 - a) = Real.pi / 2 - TAU / 4 * a := by
    unfold TAU
    ring
  rw [h, Real.sin_pi_div_two_sub]
  have hsc := Real.sin_sq_add_cos_sq (TAU / 4 * a)
  rw [pow_two, pow_two] at hsc
  linarith

theorem sinWarp_q_y0 (a c : ℝ) (h : a + c = 1) :
    (sinWarp ⟨a, 0, c⟩).x * (sinWarp ⟨a, 0, c⟩).x
      + (sinWarp ⟨a, 0, c⟩).y * (sinWarp ⟨a, 0, c⟩).y
      + (sinWarp ⟨a, 0, c⟩).z * (sinWarp ⟨a, 0, c⟩).z = 1 := by
  show Real.sin (TAU / 4 * a) * Real.sin (TAU / 4 * a)
      + Real.sin (TAU / 4 * 0) * Real.sin (TAU / 4 * 0)
      + Real.sin (TAU / 4 * c) * Real.sin (TAU / 4 * c) = 1
  rw [mul_zero, Real.sin_zero]
  have := sin_sq_complement a c h
  linarith

theorem sinWarp_q_z0 (a b : ℝ) (h : a + b = 1) :
    (sinWarp ⟨a, b, 0⟩).x * (sinWarp ⟨a, b, 0⟩).x
      + (sinWarp ⟨a, b, 0⟩).y * (sinWarp ⟨a, b, 0⟩).y
      + (sinWarp ⟨a, b, 0⟩).z * (sinWarp ⟨a, b, 0⟩).z = 1 := by
  show Real.sin (TAU / 4 * a) * Real.sin (TAU / 4 * a)
      + Real.sin (TAU / 4 * b) * Real.sin (TAU / 4 * b)
      + Real.sin (TAU / 4 * 0) * Real.sin (TAU / 4 * 0) = 1
  rw [mul_zero, Real.sin_zero]
  have := sin_sq_complement a b h
  linarith

theorem sinWarp_q_x0 (b c : ℝ) (h : b + c = 1) :
    (sinWarp ⟨0, b, c⟩).x * (sinWarp ⟨0, b, c⟩).x
      + (sinWarp ⟨0, b, c⟩).y * (sinWarp ⟨0, b, c⟩).y
      + (sinWarp ⟨0, b, c⟩).z * (sinWarp ⟨0, b, c⟩).z = 1 := by
  show Real.sin (TAU / 4 * 0) * Real.sin (TAU / 4 * 0)
      + Real.sin (TAU / 4 * b) * Real.sin (TAU / 4 * b)
      + Real.sin (TAU / 4 * c) * Real.sin (TAU / 4 * c) = 1
  rw [mul_zero, Real.sin_zero]
  have := sin_sq_complement b c h
  linarith

/-- On every boundary grid position the two sine-based generators agree
exactly: there the warped point already lies on the unit sphere, so both the
central and the parallel projection leave it unchanged. -/
theorem sineBased_agree_boundary : ∀ n, 1 ≤ n → ∀ i j, i ≤ n → j ≤ n - i →
    (i = 0 ∨ j = 0 ∨ i + j = n) →
    getV (sineBased n) i j = getV (sineBased2 n) i j := by
  intro n _hn i j hi hj hb
  rw [getV_sineBased n i j hi hj, getV_sineBased2 n i j hi hj,
    getV_sines n i j hi hj, getV_flat n i j hi hj]
  obtain ⟨ht0, ht1⟩ := cast_div_unit j (n - i) hj
  obtain ⟨hu0, hu1⟩ := cast_div_unit i n hi
  obtain ⟨a1, a2, a3, a4, a5, a6⟩ := flatF_face _ _ ht0 ht1 hu0 hu1
  have hnn := sinWarp_face _ a1 a2 a3 a4 a5 a6
    (baryNorm_flatF ((j : ℝ) / ((n - i : ℕ) : ℝ)) ((i : ℝ) / (n : ℝ)))
  apply normalize_eq_proj_of_unit
  · have hjz : j = 0 → ((j : ℝ) / ((n - i : ℕ) : ℝ)) = 0 := by
      intro h0
      rw [h0]
      simp
    rcases hb with h0 | h0 | h0
    · have hup : ((i : ℝ) / (n : ℝ)) = 0 := by
        rw [h0]
        simp
      have hfl : flatF ((j : ℝ) / ((n - i : ℕ) : ℝ)) ((i : ℝ) / (n : ℝ))
          = ⟨1 - (j : ℝ) / ((n - i : ℕ) : ℝ), 0, (j : ℝ) / ((n - i : ℕ) : ℝ)⟩ := by
        rw [hup, flatF_eq]
        ext <;> dsimp only <;> ring
      rw [hfl]
      exact sinWarp_q_y0 _ _ (by ring)
    · have hfl : flatF ((j : ℝ) / ((n - i : ℕ) : ℝ)) ((i : ℝ) / (n : ℝ))
          = ⟨1 - (i : ℝ) / (n : ℝ), (i : ℝ) / (n : ℝ), 0⟩ := by
        rw [hjz h0, flatF_eq]
        ext <;> dsimp only <;> ring
      rw [hfl]
      exact sinWarp_q_z0 _ _ (by ring)
    · by_cases hin : i = n
      · have hj0 : j = 0 := by omega
        have hfl : flatF ((j : ℝ) / ((n - i : ℕ) : ℝ)) ((i : ℝ) / (n : ℝ))
            = ⟨1 - (i : ℝ) / (n : ℝ), (i : ℝ) / (n : ℝ), 0⟩ := by
          rw [hjz hj0, flatF_eq]
          ext <;> dsimp only <;> ring
        rw [hfl]
        exact sinWarp_q_z0 _ _ (by ring)
      · have hne : ((n - i : ℕ) : ℝ) ≠ 0 := by
          have : 0 < n - i := by omega
          exact_mod_cast Nat.pos_iff_ne_zero.mp this
        have htp : ((j : ℝ) / ((n - i : ℕ) : ℝ)) = 1 := by
          have hjeq : (j : ℝ) = ((n - i : ℕ) : ℝ) := by
            exact_mod_cast congrArg (Nat.cast : ℕ → ℝ) (by omega : j = n - i)
          rw [hjeq]
          exact div_self hne
        have hfl : flatF ((j : ℝ) / ((n - i : ℕ) : ℝ)) ((i : ℝ) / (n : ℝ))
            = ⟨0, (i : ℝ) / (n : ℝ), 1 - (i : ℝ) / (n : ℝ)⟩ := by
          rw [htp, flatF_eq]
          ext <;> dsimp only <;> ring
        rw [hfl]
        exact sinWarp_q_x0 _ _ (by ring)
  · obtain ⟨b1, _, b3, _, b5, _, _⟩ := hnn
    linarith

theorem sines_4_1_1 : getV (sines 4) 1 1
    = ⟨Real.sin (Real.pi / 4), Real.sin (Real.pi / 8), Real.sin (Real.pi / 8)⟩ := by
  rw [getV_sines 4 1 1 (by norm_num) (by norm_num),
    getV_flat 4 1 1 (by norm_num) (by norm_num)]
  have hfl : flatF ((1 : ℕ) / ((4 - 1 : ℕ) : ℝ)) ((1 : ℕ) / ((4 : ℕ) : ℝ))
      = ⟨1 / 2, 1 / 4, 1 / 4⟩ := by
    rw [flatF_eq]
    ext <;> dsimp only <;> norm_num
  rw [hfl]
  unfold sinWarp TAU
  ext <;> dsimp only <;> congr 1 <;> ring

theorem sin_sq_pi_div_four : Real.sin (Real.pi / 4) * Real.sin (Real.pi / 4) = 1 / 2 := by
  rw [Real.sin_pi_div_four, div_mul_div_comm,
    Real.mul_self_sqrt (by norm_num : (0 : ℝ) ≤ 2)]
  norm_num

theorem sin_sq_pi_div_eight :
    Real.sin (Real.pi / 8) * Real.sin (Real.pi / 8) = 1 / 2 - Real.sqrt 2 / 4 := by
  have h := Real.sin_sq_eq_half_sub (Real.pi / 8)
  rw [pow_two] at h
  rw [h, show 2 * (Real.pi / 8) = Real.pi / 4 by ring, Real.cos_pi_div_four]
  ring

theorem sin_pi8_lt_sin_pi4 : Real.sin (Real.pi / 8) < Real.sin (Real.pi / 4) := by
  have hpi := Real.pi_pos
  exact Real.strictMonoOn_sin (Set.mem_Icc.mpr ⟨by linarith, by linarith⟩)
    (Set.mem_Icc.mpr ⟨by linarith, by linarith⟩) (by linarith)

theorem one_lt_sqrt_two : (1 : ℝ) < Real.sqrt 2 := by
  nlinarith [Real.sq_sqrt (show (0 : ℝ) ≤ 2 by norm_num), Real.sqrt_nonneg 2]

/-- At the interior position `(1,1)` of the order-4 grid, `sineBased` and
`sineBased2` differ: the warped point is not on the unit sphere and not on
the `(1,1,1)` diagonal, so central and parallel projection disagree. -/
theorem sineBased_ne_interior : getV (sineBased 4) 1 1 ≠ getV (sineBased2 4) 1 1 := by
  rw [getV_sineBased 4 1 1 (by norm_num) (by norm_num),
    getV_sineBased2 4 1 1 (by norm_num) (by norm_num), sines_4_1_1]
  intro heq
  set W : V3 := ⟨Real.sin (Real.pi / 4), Real.sin (Real.pi / 8), Real.sin (Real.pi / 8)⟩
    with hW
  have hpi := Real.pi_pos
  have hp8 : 0 < Real.sin (Real.pi / 8) :=
    Real.sin_pos_of_pos_of_lt_pi (by linarith) (by linarith)
  have hp4 : 0 < Real.sin (Real.pi / 4) :=
    Real.sin_pos_of_pos_of_lt_pi (by linarith) (by linarith)
  have hq : W.x * W.x + W.y * W.y + W.z * W.z = 3 / 2 - Real.sqrt 2 / 2 := by
    show Real.sin (Real.pi / 4) * Real.sin (Real.pi / 4)
        + Real.sin (Real.pi / 8) * Real.sin (Real.pi / 8)
        + Real.sin (Real.pi / 8) * Real.sin (Real.pi / 8) = 3 / 2 - Real.sqrt 2 / 2
    rw [sin_sq_pi_div_four, sin_sq_pi_div_eight]
    ring
  have hqne : W.x * W.x + W.y * W.y + W.z * W.z ≠ 1 := by
    rw [hq]
    have := one_lt_sqrt_two
    intro hcon
    linarith
  have hvnz : vnorm W ≠ 0 := by
    apply vnorm_ne_zero_of_baryNorm
    show W.x + W.y + W.z ≠ 0
    have hx : W.x = Real.sin (Real.pi / 4) := rfl
    have hy : W.y = Real.sin (Real.pi / 8) := rfl
    have hz : W.z = Real.sin (Real.pi / 8) := rfl
    rw [hx, hy, hz]
    positivity
  unfold normalize at heq
  rw [if_neg hvnz] at heq
  simp only [proj, smul] at heq
  have hxeq := congrArg V3.x heq
  have hyeq := congrArg V3.y heq
  dsimp only at hxeq hyeq
  have hxy : W.x ≠ W.y := ne_of_gt sin_pi8_lt_sin_pi4
  have hkey : (W.x - W.y) * (1 / vnorm W - 1) = 0 := by
    linear_combination hxeq - hyeq
  rcases mul_eq_zero.mp hkey with hc | hc
  · exact (sub_ne_zero.mpr hxy) hc
  · have h1 : 1 / vnorm W = 1 := by linarith
    have hv1 : vnorm W = 1 := by
      have hvp : vnorm W ≠ 0 := hvnz
      field_simp at h1
      linarith
    unfold vnorm at hv1
    exact hqne (Real.sqrt_eq_one.mp hv1)

/-- Claim C7: `sineBased` and `sineBased2` return exactly the same point at
every boundary grid position, and differ at some interior position (the
position `(1,1)` of the order-4 grid). -/
theorem sine_generators_relation :
    (∀ n, 1 ≤ n → ∀ i j, i ≤ n → j ≤ n - i → (i = 0 ∨ j = 0 ∨ i + j = n) →
      getV (sineBased n) i j = getV (sineBased2 n) i j) ∧
    getV (sineBased 4) 1 1 ≠ getV (sineBased2 4) 1 1 :=
  ⟨sineBased_agree_boundary, sineBased_ne_interior⟩

/-- Witness for C7: agreement at the boundary position `(0,0)` of the order-1
grid. -/
theorem sine_generators_relation_witness :
    getV (sineBased 1) 0 0 = getV (sineBased2 1) 0 0 :=
  sine_generators_relation.1 1 (le_refl 1) 0 0 (by norm_num) (by norm_num) (Or.inl rfl)

end Octasphere
